import Mathlib

/-!
# Verification of the Commit Propagation Engine (git-tool-suite)

Shallow embedding of the commit-propagation engine in `src/apps/propagator.py`
(`GitPropagatorApp.propagate_commit`, `GitPropagatorApp.combine_and_propagate`,
`GitPropagatorApp.run_git_command`) and of `src/utils/git_utils.run_git_command`.

The engine only talks to git through `run_git_command`, which spawns a `git`
subprocess.  We embed the engine as a deterministic interpreter over

  * a `RepoState` recording the currently checked-out branch and the local
    branch list (the only repository facts the control flow inspects), and
  * an `Env` describing the external world: the commit graph (parent lists,
    as reported by `git log --pretty=%P`), the interactive merge-parent
    collaborator (`prompt_merge_parent_selection`), and a failure oracle
    deciding which git invocations exit non-zero (conflicts, push failures,
    dirty-tree checkout failures, ...).  The oracle may depend on the whole
    history of events issued so far, so it can express time-dependent
    failures such as "the restore checkout fails because an earlier
    cherry-pick left the tree conflicted".

Every git invocation the Python code issues is recorded as an event in a
trace, in program order, together with the interactive prompts.  Python's
`try/finally` teardown blocks are embedded explicitly, so the result of a run
separates the main-phase trace from the teardown trace.
-/

namespace GitToolSuite

/-- One git subcommand issued via `run_git_command`, abstracted to the
subcommands the propagation engine actually builds (each constructor
corresponds to one f-string in `propagator.py`).  `revertCmd` is the
`git revert` subcommand: the engine never builds it, and the constructor
exists so that its absence from every trace is expressible. -/
inductive Cmd where
  | checkout (b : String)
  | checkoutNew (b : String) (base : String)
  | cherryPick (onBranch : String) (m : Option Nat) (h : String)
  | push (b : String)
  | resetSoft (h : String)
  | commitMsg (msg : String)
  | branchD (b : String)
  | revParseAbbrevHead
  | revParseHeadHash
  | revParseFirstParent (h : String)
  | logParents (h : String)
  | logSubject (h : String)
  | revertCmd (h : String)
  deriving DecidableEq, Repr

/-- Whether a subcommand mutates the local repository (HEAD, working tree,
refs) or the remote.  `cherryPick` records the branch that was checked out
when it was issued (an observation of the interpreter state, used to phrase
"branch B received commit c"). -/
def Cmd.mutating : Cmd → Bool
  | .checkout _ => true
  | .checkoutNew _ _ => true
  | .cherryPick _ _ _ => true
  | .push _ => true
  | .resetSoft _ => true
  | .commitMsg _ => true
  | .branchD _ => true
  | .revertCmd _ => true
  | _ => false

/-- An observable event of a run: a git subprocess invocation, or an
interactive merge-parent prompt shown to the collaborator. -/
inductive Ev where
  | git (c : Cmd)
  | promptMerge (h : String)
  deriving DecidableEq, Repr

def Ev.isPrompt : Ev → Bool
  | .promptMerge _ => true
  | _ => false

def Ev.isMut : Ev → Bool
  | .git c => c.mutating
  | _ => false

/-- The external world: commit graph, interactive collaborator, failure
oracle for git invocations, and the hash `git rev-parse HEAD` reports for
the freshly created combined commit. -/
structure Env where
  parents : String → List String
  choose : String → Option Nat
  fails : List Ev → Cmd → Bool
  combinedHash : String

/-- The repository facts the engine's control flow depends on. -/
structure RepoState where
  currentBranch : String
  branches : List String
  deriving DecidableEq, Repr

/-- State change performed by a successful git subcommand. -/
def applyCmd (st : RepoState) : Cmd → RepoState
  | .checkout b => ⟨b, st.branches⟩
  | .checkoutNew b _ => ⟨b, b :: st.branches⟩
  | .branchD b => ⟨st.currentBranch, st.branches.erase b⟩
  | _ => st

/-- Whether a git subcommand exits with code 0.  Intrinsic git failure
conditions (checkout of a missing branch, `branch -D` of a missing or
checked-out branch, `rev-parse h^` of a parentless commit) are combined
with the environment's failure oracle, which accounts for all other
sources of non-zero exits (conflicts, dirty tree, network, ...). -/
def cmdOk (env : Env) (tr : List Ev) (st : RepoState) : Cmd → Bool
  | .checkout b => st.branches.contains b && !(env.fails tr (.checkout b))
  | .checkoutNew b base => !(st.branches.contains b) && !(env.fails tr (.checkoutNew b base))
  | .branchD b =>
      st.branches.contains b && (b != st.currentBranch) && !(env.fails tr (.branchD b))
  | .revParseFirstParent h =>
      !(env.parents h).isEmpty && !(env.fails tr (.revParseFirstParent h))
  | c => !(env.fails tr c)

/-- Result of issuing one git subcommand: the extended trace, the state
after the command, and whether it succeeded. -/
structure StepRes where
  trace : List Ev
  state : RepoState
  ok : Bool
  deriving DecidableEq, Repr

/-- Issue one git subcommand (one `run_git_command` call). -/
def issue (env : Env) (tr : List Ev) (st : RepoState) (c : Cmd) : StepRes :=
  let ok := cmdOk env tr st c
  ⟨tr ++ [Ev.git c], if ok then applyCmd st c else st, ok⟩

/-- Events issued by `prompt_merge_parent_selection(commit_hash)`: it runs
`git log --pretty=%P -n 1` via `get_commit_parents`, one
`git log --oneline -n 1 parent` per parent for the radio-button labels,
then shows the dialog. -/
def promptEvents (env : Env) (c : String) : List Ev :=
  Ev.git (.logParents c) :: (env.parents c).map (fun p => Ev.git (.logSubject p))
    ++ [Ev.promptMerge c]

/-- `prompt_merge_parent_selection` returns `None` when the commit has
fewer than two parents, otherwise the collaborator's answer. -/
def promptChoice (env : Env) (c : String) : Option Nat :=
  if (env.parents c).length < 2 then none else env.choose c

/-- The merge-parent collection loops of `propagate_commit` (lines 817-823)
and `combine_and_propagate` (lines 945-952): for each commit in replay
order whose `commit_data` entry says it is a merge (2+ parents), prompt the
collaborator; the first declined prompt cancels the whole operation.
Returns the prompt events together with `some assignments` or `none`
(declined). -/
def resolveMerges (env : Env) : List String → List Ev × Option (List (String × Nat))
  | [] => ([], some [])
  | c :: rest =>
    if (env.parents c).length > 1 then
      match promptChoice env c with
      | none => (promptEvents env c, none)
      | some k =>
        let r := resolveMerges env rest
        (promptEvents env c ++ r.1, r.2.map (fun l => (c, k) :: l))
    else resolveMerges env rest

/-- Lookup in the `merge_parents` dict: `commit_hash in merge_parents`. -/
def lookupMP (mps : List (String × Nat)) (c : String) : Option Nat :=
  (mps.find? (fun p => p.fst == c)).map Prod.snd

/-- The inner cherry-pick loop over the (already reversed) commit list, on
the branch that is currently checked out.  Stops at the first failing
cherry-pick. -/
def pickLoop (env : Env) (mp : String → Option Nat) (b : String) :
    List String → List Ev → RepoState → StepRes
  | [], tr, st => ⟨tr, st, true⟩
  | c :: rest, tr, st =>
    let r := issue env tr st (.cherryPick b (mp c) c)
    if r.ok then pickLoop env mp b rest r.trace r.state else r

/-- One iteration of the per-target loop: `checkout branch`, cherry-pick
every commit, optionally `push -u origin branch`.  Any failure makes the
whole iteration fail (the Python `except` around the loop body). -/
def replayTarget (env : Env) (mp : String → Option Nat) (commits : List String)
    (push : Bool) (b : String) (tr : List Ev) (st : RepoState) : StepRes :=
  let r1 := issue env tr st (.checkout b)
  if r1.ok then
    let r2 := pickLoop env mp b commits r1.trace r1.state
    if r2.ok then
      if push then issue env r2.trace r2.state (.push b) else r2
    else r2
  else r1

/-- Result of the per-target loop: trace, state, and the index of the
target on which the loop aborted (`none` when every target succeeded). -/
structure LoopRes where
  trace : List Ev
  state : RepoState
  failedIdx : Option Nat
  deriving DecidableEq, Repr

/-- The per-target loop (`for branch in target_branches` / `for branch in
targets`): targets in caller order; the first failing target aborts the
rest (the body's `except ...: return`). -/
def targetsLoop (env : Env) (mp : String → Option Nat) (commits : List String)
    (push : Bool) : List String → Nat → List Ev → RepoState → LoopRes
  | [], _, tr, st => ⟨tr, st, none⟩
  | b :: rest, i, tr, st =>
    let r := replayTarget env mp commits push b tr st
    if r.ok then targetsLoop env mp commits push rest (i + 1) r.trace r.state
    else ⟨r.trace, r.state, some i⟩

def warnRestoreInd : String := "WARNING: Could not return to original branch."

def warnCleanupCombine : String :=
  "WARNING: Could not clean up temp branch or return to original branch."

/-- Teardown events, resulting state and warning lines of a teardown
block. -/
structure TDRes where
  events : List Ev
  state : RepoState
  warnings : List String
  deriving DecidableEq, Repr

/-- The `finally` block of `propagate_commit` (lines 849-857): if the
`original_branch` field is non-empty, try to check it out; a failure is
caught and logged as a warning, never re-raised. -/
def teardownInd (env : Env) (tr : List Ev) (st : RepoState) (field : String) : TDRes :=
  if field = "" then ⟨[], st, []⟩
  else
    let ok := cmdOk env tr st (.checkout field)
    ⟨[Ev.git (.checkout field)],
     if ok then applyCmd st (.checkout field) else st,
     if ok then [] else [warnRestoreInd]⟩

/-- The `finally` block of `combine_and_propagate` (lines 1005-1013): one
`try` around (checkout of the original branch if the field is non-empty,
then `branch -D temp`); the first `CalledProcessError` jumps to the
`except`, which logs one warning.  In particular a failing restore
checkout skips the temp-branch deletion. -/
def teardown_combine (env : Env) (tr : List Ev) (st : RepoState)
    (field temp : String) : TDRes :=
  if field = "" then
    let ok := cmdOk env tr st (.branchD temp)
    ⟨[Ev.git (.branchD temp)],
     if ok then applyCmd st (.branchD temp) else st,
     if ok then [] else [warnCleanupCombine]⟩
  else
    let ok1 := cmdOk env tr st (.checkout field)
    if ok1 then
      let st1 := applyCmd st (.checkout field)
      let tr1 := tr ++ [Ev.git (.checkout field)]
      let ok2 := cmdOk env tr1 st1 (.branchD temp)
      ⟨[Ev.git (.checkout field), Ev.git (.branchD temp)],
       if ok2 then applyCmd st1 (.branchD temp) else st1,
       if ok2 then [] else [warnCleanupCombine]⟩
    else ⟨[Ev.git (.checkout field)], st, [warnCleanupCombine]⟩

/-- How a run of the engine ended.  `raised` is an exception that escaped
to the caller (after the `finally` blocks ran); `errored` is the combine
path's own `except subprocess.CalledProcessError` handler (an error dialog,
then a normal return); `finished f` is a normal return of the per-target
phase, `f` being the index of the target the loop aborted on, if any. -/
inductive Outcome where
  | cancelled
  | errored
  | raised
  | finished (failedIdx : Option Nat)
  deriving DecidableEq, Repr

/-- The observable result of one engine run. -/
structure PropResult where
  mainTrace : List Ev
  teardownTrace : List Ev
  outcome : Outcome
  warnings : List String
  finalState : RepoState
  fieldOriginal : String
  deriving DecidableEq, Repr

/-- Embedding of the multi-commit individual (non-combine) branch of
`GitPropagatorApp.propagate_commit` (lines 810-857; the single-commit
branch, lines 756-799, is this flow at a one-element selection).

`st0` is the repository state, `field0` the value of the
`self.original_branch` instance field on entry (it persists across calls),
`selection` the commit hashes in listbox order (newest first), `confirm`
the answer of the `askyesno` confirmation dialog.

Flow of the source: build `commits` from the selection and reverse it;
prompt for a merge parent for every merge commit (declining cancels before
anything else happens); confirmation gate; then inside `try`: capture the
original branch with `rev-parse --abbrev-ref HEAD` (a failure here
propagates to the caller, through the `finally`), run the per-target loop,
and in `finally` restore the original branch, downgrading a restore
failure to a warning. -/
def propagate_commit_individual (env : Env) (st0 : RepoState) (field0 : String)
    (selection : List String) (targets : List String)
    (push confirm : Bool) : PropResult :=
  let commits := selection.reverse
  match resolveMerges env commits with
  | (evs, none) => ⟨evs, [], .cancelled, [], st0, field0⟩
  | (evs, some mps) =>
    if confirm = false then ⟨evs, [], .cancelled, [], st0, field0⟩
    else
      let cap := issue env evs st0 .revParseAbbrevHead
      if cap.ok = false then
        let td := teardownInd env cap.trace cap.state field0
        ⟨cap.trace, td.events, .raised, td.warnings, td.state, field0⟩
      else
        let orig := cap.state.currentBranch
        let lr := targetsLoop env (lookupMP mps) commits push targets 0 cap.trace cap.state
        let td := teardownInd env lr.trace lr.state orig
        ⟨lr.trace, td.events, .finished lr.failedIdx, td.warnings, td.state, orig⟩

/-- Embedding of `GitPropagatorApp.combine_and_propagate` (lines 923-1016).

Flow of the source, with everything from the merge prompts to the target
loop inside one `try ... except subprocess.CalledProcessError ... finally`:
reverse the selection; prompt for merge parents (declining returns through
the `finally`); capture the original branch; index `commits_reversed[0]`
(an `IndexError` on an empty selection is not caught by the `except`
clause, but the `finally` still runs); `rev-parse first^` for the base;
`checkout -b temp base`; cherry-pick every commit; `reset --soft base`;
`commit -m message`; `rev-parse HEAD` for the combined hash; then the
per-target loop cherry-picks the single combined commit (its own
`except ...: return` per target); teardown deletes the temp branch after
restoring the original branch. -/
def combine_and_propagate (env : Env) (st0 : RepoState) (field0 : String)
    (temp : String) (msg : String) (selection : List String)
    (targets : List String) (push : Bool) : PropResult :=
  let commits := selection.reverse
  match resolveMerges env commits with
  | (evs, none) =>
    let td := teardown_combine env evs st0 field0 temp
    ⟨evs, td.events, .cancelled, td.warnings, td.state, field0⟩
  | (evs, some mps) =>
    let cap := issue env evs st0 .revParseAbbrevHead
    if cap.ok = false then
      let td := teardown_combine env cap.trace cap.state field0 temp
      ⟨cap.trace, td.events, .errored, td.warnings, td.state, field0⟩
    else
      let orig := cap.state.currentBranch
      match commits with
      | [] =>
        let td := teardown_combine env cap.trace cap.state orig temp
        ⟨cap.trace, td.events, .raised, td.warnings, td.state, orig⟩
      | first :: _ =>
        let s1 := issue env cap.trace cap.state (.revParseFirstParent first)
        if s1.ok = false then
          let td := teardown_combine env s1.trace s1.state orig temp
          ⟨s1.trace, td.events, .errored, td.warnings, td.state, orig⟩
        else
          let base := (env.parents first).headD ""
          let s2 := issue env s1.trace s1.state (.checkoutNew temp base)
          if s2.ok = false then
            let td := teardown_combine env s2.trace s2.state orig temp
            ⟨s2.trace, td.events, .errored, td.warnings, td.state, orig⟩
          else
            let s3 := pickLoop env (lookupMP mps) temp commits s2.trace s2.state
            if s3.ok = false then
              let td := teardown_combine env s3.trace s3.state orig temp
              ⟨s3.trace, td.events, .errored, td.warnings, td.state, orig⟩
            else
              let s4 := issue env s3.trace s3.state (.resetSoft base)
              if s4.ok = false then
                let td := teardown_combine env s4.trace s4.state orig temp
                ⟨s4.trace, td.events, .errored, td.warnings, td.state, orig⟩
              else
                let s5 := issue env s4.trace s4.state (.commitMsg msg)
                if s5.ok = false then
                  let td := teardown_combine env s5.trace s5.state orig temp
                  ⟨s5.trace, td.events, .errored, td.warnings, td.state, orig⟩
                else
                  let s6 := issue env s5.trace s5.state .revParseHeadHash
                  if s6.ok = false then
                    let td := teardown_combine env s6.trace s6.state orig temp
                    ⟨s6.trace, td.events, .errored, td.warnings, td.state, orig⟩
                  else
                    let lr := targetsLoop env (fun _ => none) [env.combinedHash]
                      push targets 0 s6.trace s6.state
                    let td := teardown_combine env lr.trace lr.state orig temp
                    ⟨lr.trace, td.events, .finished lr.failedIdx, td.warnings,
                      td.state, orig⟩

/-- The cherry-pick events a trace records as issued on branch `b`. -/
def evPick (b : String) : Ev → Option String
  | .git (.cherryPick ob _ h) => if ob = b then some h else none
  | _ => none

/-- The hashes cherry-picked on branch `b`, in order, along a trace. -/
def picksOn (tr : List Ev) (b : String) : List String := tr.filterMap (evPick b)

/-! ## The command runner: `run_git_command` and `shlex.split`

`run_git_command` (both the copy in `src/utils/git_utils.py`, lines 10-48,
and the method copy in `src/apps/propagator.py`, lines 182-209) raises
`ValueError` when the repository path is falsy, then builds
`["git"] + shlex.split(command)` and hands that list to `subprocess.run`
without `shell=True`.  We embed the part up to and including the argument
vector the subprocess would receive. -/

/-- The characters in Python's `shlex.whitespace` (space, tab, CR, LF). -/
def wsChars : List Char := [Char.ofNat 32, Char.ofNat 9, Char.ofNat 13, Char.ofNat 10]

/-- The single-quote character. -/
def squote : Char := Char.ofNat 39

/-- The double-quote character. -/
def dquote : Char := Char.ofNat 34

/-- The backslash character (Python `shlex` escape character). -/
def bslash : Char := Char.ofNat 92

/-- Lexer state of `shlex` in POSIX mode: outside quotes, inside single
quotes, inside double quotes, after a backslash outside quotes, after a
backslash inside double quotes. -/
inductive LexState where
  | out
  | sq
  | dq
  | escOut
  | escDq
  deriving DecidableEq, Repr

/-- One-token-at-a-time transcription of Python's `shlex.split` (POSIX
mode, `whitespace_split=True`, as called by `shlex.split`): whitespace
separates tokens; a backslash escapes the next character; single quotes
are literal until the closing quote; inside double quotes a backslash
escapes only a double quote or a backslash and is otherwise kept; a
dangling escape or an unclosed quote raises `ValueError` (here: `none`).
`cur` is the current token, reversed; `started` records whether a token is
in progress (so that empty quoted strings yield empty tokens). -/
def shlexAux : LexState → List Char → List Char → Bool → List String → Option (List String)
  | .out, [], cur, started, acc =>
      some (if started then acc ++ [String.mk cur.reverse] else acc)
  | .out, c :: rest, cur, started, acc =>
      if wsChars.contains c then
        if started then shlexAux .out rest [] false (acc ++ [String.mk cur.reverse])
        else shlexAux .out rest [] false acc
      else if c = bslash then shlexAux .escOut rest cur true acc
      else if c = squote then shlexAux .sq rest cur true acc
      else if c = dquote then shlexAux .dq rest cur true acc
      else shlexAux .out rest (c :: cur) true acc
  | .escOut, [], _, _, _ => none
  | .escOut, c :: rest, cur, _, acc => shlexAux .out rest (c :: cur) true acc
  | .sq, [], _, _, _ => none
  | .sq, c :: rest, cur, started, acc =>
      if c = squote then shlexAux .out rest cur started acc
      else shlexAux .sq rest (c :: cur) started acc
  | .dq, [], _, _, _ => none
  | .dq, c :: rest, cur, started, acc =>
      if c = dquote then shlexAux .out rest cur started acc
      else if c = bslash then shlexAux .escDq rest cur started acc
      else shlexAux .dq rest (c :: cur) started acc
  | .escDq, [], _, _, _ => none
  | .escDq, c :: rest, cur, started, acc =>
      if c = dquote || c = bslash then shlexAux .dq rest (c :: cur) started acc
      else shlexAux .dq rest (c :: bslash :: cur) started acc

/-- `shlex.split(s)`. -/
def shlexSplit (s : String) : Option (List String) :=
  shlexAux .out s.data [] false []

/-- The exceptions `run_git_command` can raise before starting a
subprocess: the explicit `ValueError` for an unset repository path, and
the `ValueError` `shlex.split` raises on an unclosed quote or dangling
escape. -/
inductive GitCallError where
  | valueError (msg : String)
  | lexError
  deriving DecidableEq, Repr

/-- What `subprocess.run` is invoked with: the discrete argument vector,
whether a shell interprets the command (`shell=True`), and the working
directory. -/
structure ExecSpec where
  argv : List String
  useShell : Bool
  cwd : String
  deriving DecidableEq, Repr

/-- Embedding of `run_git_command(command, repo_path)` up to the
subprocess call: the falsy-path guard raises `ValueError` before anything
else; otherwise the subprocess receives `["git"] + shlex.split(command)`
as a discrete list, with no shell (`subprocess.run` is called with a list
argument and without `shell=True`). -/
def run_git_command_exec (command repoPath : String) : Except GitCallError ExecSpec :=
  if repoPath = "" then .error (.valueError "Repository path not set.")
  else
    match shlexSplit command with
    | none => .error .lexError
    | some args => .ok ⟨"git" :: args, false, repoPath⟩

/-- A character that `shlex` treats as ordinary text: not whitespace, not
a quote, not the escape character. -/
def plainChar (c : Char) : Bool :=
  !(wsChars.contains c) && !(c == bslash) && !(c == squote) && !(c == dquote)

/-! ## Content model of cherry-pick, for the combine protocol

Modelled from the spec: the repository's merge machinery is external to
this repository (the engine shells out to `git cherry-pick`, `git reset
--soft`, `git commit`).  The spec's glossary defines cherry-pick as "apply
the content change introduced by one existing commit on top of the current
branch as a new commit" and soft reset as "move a branch pointer ...
leaving the working tree and staged changes untouched".  We model a
working tree as a map from file names to contents, and the content change
of a commit (relative to its resolved parent) as a patch: the list of
files whose contents differ, each with its before and after contents.
Applying a patch demands the before contents and rewrites them to the
after contents. -/

/-- A working tree: contents for every file name (missing files are the
empty string). -/
abbrev Tree : Type := String → String

/-- One changed file of a commit's content change: the file, its contents
in the resolved parent, and its contents in the commit. -/
structure PatchEntry where
  file : String
  before : String
  after : String
  deriving DecidableEq, Repr

/-- Apply one changed file to a tree: the tree must show the before
contents, which are rewritten to the after contents (otherwise the
cherry-pick conflicts). -/
def applyEntry (t : Tree) (e : PatchEntry) : Option Tree :=
  if t e.file = e.before then some (fun f => if f = e.file then e.after else t f)
  else none

/-- Apply a commit's content change (cherry-pick it onto a tree). -/
def applyPatch : Tree → List PatchEntry → Option Tree
  | t, [] => some t
  | t, e :: es =>
    match applyEntry t e with
    | some t1 => applyPatch t1 es
    | none => none

/-- Cherry-pick a sequence of commits onto a tree, oldest first, stopping
at the first conflict (the engine's cherry-pick loops). -/
def seqApply : Tree → List (List PatchEntry) → Option Tree
  | t, [] => some t
  | t, p :: ps =>
    match applyPatch t p with
    | some t1 => seqApply t1 ps
    | none => none

/-- The content change between two trees over a file universe: the files
with differing contents, with their before and after contents.  This is
the patch of the combined commit the protocol creates: after the
cherry-pick sequence on the temporary branch the working tree is `b`
turned into `w`, the soft reset moves the branch pointer back to the base
while keeping `w`, and the new commit has tree `w` and parent tree `b`. -/
def diffOn (files : List String) (a b : Tree) : List PatchEntry :=
  files.filterMap (fun f => if a f = b f then none else some ⟨f, a f, b f⟩)

/-! ## Theorems -/

/-- Decomposition of `plainChar`. -/
theorem plainChar_spec (c : Char) (h : plainChar c = true) :
    wsChars.contains c = false ∧ c ≠ bslash ∧ c ≠ squote ∧ c ≠ dquote := by
  simp only [plainChar, Bool.and_eq_true, Bool.not_eq_true', beq_eq_false_iff_ne, ne_eq] at h
  exact ⟨h.1.1.1, h.1.1.2, h.1.2, h.2⟩

/-- Consuming plain characters in the `out` state just accumulates them
into the current token. -/
theorem shlexAux_plain_consume (cs : List Char) (h : ∀ c ∈ cs, plainChar c = true) :
    ∀ (rest cur : List Char) (acc : List String),
      shlexAux .out (cs ++ rest) cur true acc =
        shlexAux .out rest (cs.reverse ++ cur) true acc := by
  induction cs with
  | nil => intro rest cur acc; simp
  | cons c cs ih =>
    intro rest cur acc
    have hc := plainChar_spec c (h c (by simp))
    rw [List.cons_append, shlexAux]
    rw [if_neg (by simpa using hc.1), if_neg hc.2.1, if_neg hc.2.2.1, if_neg hc.2.2.2]
    rw [ih (fun x hx => h x (by simp [hx])) rest (c :: cur) acc]
    congr 1
    simp

/-- A non-empty all-plain token followed by a space, starting between
tokens, emits exactly that token. -/
theorem shlexAux_token_ws (c : Char) (cs : List Char)
    (h : ∀ x ∈ c :: cs, plainChar x = true)
    (rest : List Char) (acc : List String) :
    shlexAux .out (c :: (cs ++ Char.ofNat 32 :: rest)) [] false acc =
      shlexAux .out rest [] false (acc ++ [String.mk (c :: cs)]) := by
  have hc := plainChar_spec c (h c (by simp))
  rw [shlexAux]
  rw [if_neg (by simpa using hc.1), if_neg hc.2.1, if_neg hc.2.2.1, if_neg hc.2.2.2]
  rw [shlexAux_plain_consume cs (fun x hx => h x (by simp [hx])) (Char.ofNat 32 :: rest) [c] acc]
  rw [shlexAux]
  rw [if_pos (by decide)]
  rw [if_pos rfl]
  congr 2
  simp

/-- A run consisting of a single non-empty all-plain token, starting
between tokens, ends with exactly that token appended. -/
theorem shlexAux_plain_token (c : Char) (cs : List Char)
    (h : ∀ x ∈ c :: cs, plainChar x = true) (acc : List String) :
    shlexAux .out (c :: cs) [] false acc = some (acc ++ [String.mk (c :: cs)]) := by
  have hc := plainChar_spec c (h c (by simp))
  rw [shlexAux]
  rw [if_neg (by simpa using hc.1), if_neg hc.2.1, if_neg hc.2.2.1, if_neg hc.2.2.2]
  have hrun := shlexAux_plain_consume cs (fun x hx => h x (by simp [hx])) [] [c] acc
  rw [List.append_nil] at hrun
  rw [hrun, shlexAux]
  simp

theorem string_mk_data (s : String) : String.mk s.data = s := rfl

/-- `shlex.split` on `"checkout " + name` for a non-empty branch name free
of whitespace, quotes and backslashes: the name survives as one argument. -/
theorem shlexSplit_checkout_plain (name : String) (hn : name.data ≠ [])
    (h : ∀ c ∈ name.data, plainChar c = true) :
    shlexSplit ("checkout " ++ name) = some ["checkout", name] := by
  unfold shlexSplit
  rw [String.data_append]
  have hco : "checkout ".data = Char.ofNat 99 :: ("heckout".data ++ [Char.ofNat 32]) := by
    decide
  rw [hco]
  cases hdn : name.data with
  | nil => exact absurd hdn hn
  | cons c cs =>
    have h2 : ∀ x ∈ c :: cs, plainChar x = true := by rw [← hdn]; exact h
    rw [List.cons_append, List.append_assoc, List.singleton_append]
    rw [shlexAux_token_ws (Char.ofNat 99) ("heckout".data) (by decide) (c :: cs) []]
    rw [shlexAux_plain_token c cs h2]
    have hck : String.mk (Char.ofNat 99 :: "heckout".data) = "checkout" := by decide
    rw [hck]
    rw [← hdn, string_mk_data]
    rfl

/-- C10: `run_git_command` with an empty repository path raises
`ValueError("Repository path not set.")` before any subprocess is built,
in both copies of the function (`src/utils/git_utils.py` lines 25-26,
`src/apps/propagator.py` lines 183-184). -/
theorem C10_empty_repo_path_value_error (command repoPath : String) (h : repoPath = "") :
    run_git_command_exec command repoPath =
      .error (.valueError "Repository path not set.") := by
  subst h; rfl

/-- Witness for C10 at a concrete command. -/
theorem C10_empty_repo_path_value_error_witness :
    ("" : String) = "" ∧
      run_git_command_exec "status --porcelain" "" =
        .error (.valueError "Repository path not set.") :=
  ⟨rfl, C10_empty_repo_path_value_error "status --porcelain" "" rfl⟩

/-- C7 as stated is false: the command is indeed executed without a shell,
but the argument vector is produced by `shlex.split` of a formatted
string, so a branch name containing a space is split into two separate
arguments — the argument boundaries are altered.  Concretely, `git
checkout` of the branch named `a b` receives the two arguments `a` and
`b` instead of the single argument `a b`. -/
theorem C7_counterexample :
    run_git_command_exec ("checkout " ++ "a b") "/repo" =
      .ok ⟨["git", "checkout", "a", "b"], false, "/repo"⟩ ∧
      ["git", "checkout", "a", "b"] ≠ ["git", "checkout", "a b"] := by
  constructor
  · rfl
  · decide

/-- C7 amended: every git invocation is executed without shell
interpretation (`subprocess.run` receives the discrete list
`["git"] + shlex.split(command)` and no shell ever interprets the text,
so no additional commands can be injected); however the argument list is
obtained by `shlex`-splitting a formatted command string, so only
branch/commit names free of whitespace, quotes and backslashes are
guaranteed to survive as a single argument (names containing such
characters can alter argument boundaries, as the counterexample shows). -/
theorem C7_amended_no_shell (command repoPath name : String) (hrp : repoPath ≠ "")
    (hn : name.data ≠ []) (hplain : ∀ c ∈ name.data, plainChar c = true) :
    (∀ spec, run_git_command_exec command repoPath = .ok spec →
      spec.useShell = false ∧ ∃ args, shlexSplit command = some args ∧
        spec.argv = "git" :: args) ∧
    run_git_command_exec ("checkout " ++ name) repoPath =
      .ok ⟨["git", "checkout", name], false, repoPath⟩ := by
  constructor
  · intro spec hspec
    rw [run_git_command_exec, if_neg hrp] at hspec
    cases hsh : shlexSplit command with
    | none => rw [hsh] at hspec; exact absurd hspec (by simp)
    | some args =>
      rw [hsh] at hspec
      simp only [Except.ok.injEq] at hspec
      subst hspec
      exact ⟨rfl, args, rfl, rfl⟩
  · rw [run_git_command_exec, if_neg hrp, shlexSplit_checkout_plain name hn hplain]

/-- Witness for the amended C7 at a concrete command and branch name. -/
theorem C7_amended_no_shell_witness :
    ("/repo" : String) ≠ "" ∧ "release-1.2".data ≠ [] ∧
      (∀ c ∈ "release-1.2".data, plainChar c = true) ∧
      run_git_command_exec ("checkout " ++ "release-1.2") "/repo" =
        .ok ⟨["git", "checkout", "release-1.2"], false, "/repo"⟩ :=
  ⟨by decide, by decide, by decide,
    (C7_amended_no_shell "branch" "/repo" "release-1.2" (by decide) (by decide)
      (by decide)).2⟩

/-! ### The combine protocol refines sequential cherry-picking (C8) -/

/-- Relation between cherry-picking the same patch sequence onto a base
tree (yielding `w`) and onto a target tree (yielding `tw`): on every file
either the sequence left the base contents alone (and then the target file
is also untouched), or it rewrote the base contents (and then the target
had to show the base contents and now shows the final contents). -/
def PickInv (b w t tw : Tree) : Prop :=
  ∀ f, (w f = b f → tw f = t f) ∧ (w f ≠ b f → t f = b f ∧ tw f = w f)

theorem applyEntry_some (t : Tree) (e : PatchEntry) (t1 : Tree)
    (h : applyEntry t e = some t1) :
    t e.file = e.before ∧ t1 = fun f => if f = e.file then e.after else t f := by
  rw [applyEntry] at h
  by_cases hc : t e.file = e.before
  · rw [if_pos hc] at h
    exact ⟨hc, (Option.some.inj h).symm⟩
  · rw [if_neg hc] at h
    exact absurd h (by simp)

theorem applyPatch_inv (es : List PatchEntry) :
    ∀ (b t w tw : Tree), applyPatch b es = some w → applyPatch t es = some tw →
      PickInv b w t tw := by
  induction es with
  | nil =>
    intro b t w tw hb ht
    rw [applyPatch] at hb ht
    obtain rfl := Option.some.inj hb
    obtain rfl := Option.some.inj ht
    intro f
    exact ⟨fun _ => rfl, fun hne => absurd rfl hne⟩
  | cons e es ih =>
    intro b t w tw hb ht
    rw [applyPatch] at hb ht
    cases hbe : applyEntry b e with
    | none => rw [hbe] at hb; exact absurd hb (by simp)
    | some b1 =>
      cases hte : applyEntry t e with
      | none => rw [hte] at ht; exact absurd ht (by simp)
      | some t1 =>
        rw [hbe] at hb; rw [hte] at ht
        obtain ⟨hbf, hb1⟩ := applyEntry_some b e b1 hbe
        obtain ⟨htf, ht1⟩ := applyEntry_some t e t1 hte
        have hinv := ih b1 t1 w tw hb ht
        intro f
        by_cases hf : f = e.file
        · have hb1f : b1 f = e.after := by rw [hb1]; simp [hf]
          have ht1f : t1 f = e.after := by rw [ht1]; simp [hf]
          have hbf2 : b f = e.before := by rw [hf]; exact hbf
          have htf2 : t f = e.before := by rw [hf]; exact htf
          have htww : tw f = w f := by
            by_cases hw : w f = b1 f
            · rw [(hinv f).1 hw, ht1f, ← hb1f, ← hw]
            · exact ((hinv f).2 hw).2
          refine ⟨fun hwb => ?_, fun _ => ⟨by rw [htf2, hbf2], htww⟩⟩
          rw [htww, hwb, hbf2, htf2]
        · have hb1f : b1 f = b f := by rw [hb1]; simp [hf]
          have ht1f : t1 f = t f := by rw [ht1]; simp [hf]
          have := hinv f
          rw [hb1f, ht1f] at this
          exact this

theorem PickInv_trans (b m t tm w tw : Tree)
    (h1 : PickInv b m t tm) (h2 : PickInv m w tm tw) : PickInv b w t tw := by
  intro f
  obtain ⟨h1a, h1b⟩ := h1 f
  obtain ⟨h2a, h2b⟩ := h2 f
  constructor
  · intro hwb
    by_cases hwm : w f = m f
    · have hmb : m f = b f := by rw [← hwm, hwb]
      rw [h2a hwm, h1a hmb]
    · obtain ⟨_, htw⟩ := h2b hwm
      have hmb : m f ≠ b f := fun hmb => hwm (by rw [hwb, hmb])
      obtain ⟨htb, _⟩ := h1b hmb
      rw [htw, hwb, htb]
  · intro hwb
    by_cases hwm : w f = m f
    · have hmb : m f ≠ b f := fun hmb => hwb (by rw [hwm, hmb])
      obtain ⟨htb, htm⟩ := h1b hmb
      exact ⟨htb, by rw [h2a hwm, htm, hwm]⟩
    · obtain ⟨htmm, htw⟩ := h2b hwm
      constructor
      · by_cases hmb : m f = b f
        · rw [← h1a hmb, htmm, hmb]
        · exact (h1b hmb).1
      · exact htw

theorem seqApply_inv (ps : List (List PatchEntry)) :
    ∀ (b t w tw : Tree), seqApply b ps = some w → seqApply t ps = some tw →
      PickInv b w t tw := by
  induction ps with
  | nil =>
    intro b t w tw hb ht
    rw [seqApply] at hb ht
    obtain rfl := Option.some.inj hb
    obtain rfl := Option.some.inj ht
    intro f
    exact ⟨fun _ => rfl, fun hne => absurd rfl hne⟩
  | cons p ps ih =>
    intro b t w tw hb ht
    rw [seqApply] at hb ht
    cases hbp : applyPatch b p with
    | none => rw [hbp] at hb; exact absurd hb (by simp)
    | some b1 =>
      cases htp : applyPatch t p with
      | none => rw [htp] at ht; exact absurd ht (by simp)
      | some t1 =>
        rw [hbp] at hb; rw [htp] at ht
        exact PickInv_trans b b1 t t1 w tw
          (applyPatch_inv p b t b1 t1 hbp htp) (ih b1 t1 w tw hb ht)

theorem applyPatch_untouched (es : List PatchEntry) :
    ∀ (t tw : Tree) (f : String), applyPatch t es = some tw →
      (∀ e ∈ es, e.file ≠ f) → tw f = t f := by
  induction es with
  | nil =>
    intro t tw f h _
    rw [applyPatch] at h
    obtain rfl := Option.some.inj h
    rfl
  | cons e es ih =>
    intro t tw f h hni
    rw [applyPatch] at h
    cases hte : applyEntry t e with
    | none => rw [hte] at h; exact absurd h (by simp)
    | some t1 =>
      rw [hte] at h
      obtain ⟨_, ht1⟩ := applyEntry_some t e t1 hte
      have h1 : t1 f = t f := by
        rw [ht1]
        have hne : ¬f = e.file := fun hc => hni e (by simp) hc.symm
        simp [hne]
      rw [ih t1 tw f h (fun x hx => hni x (by simp [hx])), h1]

theorem seqApply_untouched (ps : List (List PatchEntry)) :
    ∀ (t tw : Tree) (f : String), seqApply t ps = some tw →
      (∀ p ∈ ps, ∀ e ∈ p, e.file ≠ f) → tw f = t f := by
  induction ps with
  | nil =>
    intro t tw f h _
    rw [seqApply] at h
    obtain rfl := Option.some.inj h
    rfl
  | cons p ps ih =>
    intro t tw f h hni
    rw [seqApply] at h
    cases htp : applyPatch t p with
    | none => rw [htp] at h; exact absurd h (by simp)
    | some t1 =>
      rw [htp] at h
      rw [ih t1 tw f h (fun x hx => hni x (by simp [hx]))]
      exact applyPatch_untouched p t t1 f htp (hni p (by simp))

/-- Applying a patch whose entries touch pairwise distinct files, all of
which show their before contents, succeeds and rewrites exactly those
files. -/
theorem applyPatch_distinct (es : List PatchEntry) :
    ∀ (t : Tree), List.Pairwise (fun x y => x.file ≠ y.file) es →
      (∀ e ∈ es, t e.file = e.before) →
      ∃ t2, applyPatch t es = some t2 ∧ (∀ e ∈ es, t2 e.file = e.after) ∧
        ∀ f, (∀ e ∈ es, e.file ≠ f) → t2 f = t f := by
  induction es with
  | nil =>
    intro t _ _
    exact ⟨t, rfl, by simp, fun _ _ => rfl⟩
  | cons e es ih =>
    intro t hpw hpre
    rw [List.pairwise_cons] at hpw
    have hte : applyEntry t e = some (fun f => if f = e.file then e.after else t f) := by
      rw [applyEntry, if_pos (hpre e (by simp))]
    obtain ⟨t2, happ, hafter, huntouched⟩ :=
      ih (fun f => if f = e.file then e.after else t f) hpw.2 (by
        intro x hx
        have hne : x.file ≠ e.file := fun hc => hpw.1 x hx hc.symm
        simp only [if_neg hne]
        exact hpre x (by simp [hx]))
    refine ⟨t2, ?_, ?_, ?_⟩
    · rw [applyPatch, hte]
      exact happ
    · intro x hx
      rcases List.mem_cons.mp hx with rfl | hx2
      · rw [huntouched x.file (fun y hy => Ne.symm (hpw.1 y hy)), if_pos rfl]
      · exact hafter x hx2
    · intro f hf
      rw [huntouched f (fun y hy => hf y (by simp [hy]))]
      have hne : ¬f = e.file := fun hc => hf e (by simp) hc.symm
      simp only [if_neg hne]

theorem diffOn_mem (files : List String) (a b : Tree) (e : PatchEntry) :
    e ∈ diffOn files a b ↔
      e.file ∈ files ∧ a e.file ≠ b e.file ∧ e.before = a e.file ∧
        e.after = b e.file := by
  simp only [diffOn, List.mem_filterMap]
  constructor
  · rintro ⟨f, hf, hg⟩
    by_cases hab : a f = b f
    · rw [if_pos hab] at hg; exact absurd hg (by simp)
    · rw [if_neg hab] at hg
      obtain rfl := Option.some.inj hg
      exact ⟨hf, hab, rfl, rfl⟩
  · rintro ⟨hf, hab, hbe, haf⟩
    refine ⟨e.file, hf, ?_⟩
    rw [if_neg hab]
    cases e
    simp only at hbe haf
    rw [hbe, haf]

theorem diffOn_pairwise (files : List String) (a b : Tree) (h : files.Nodup) :
    List.Pairwise (fun x y => x.file ≠ y.file) (diffOn files a b) := by
  induction files with
  | nil => simp [diffOn]
  | cons f fs ih =>
    rw [List.nodup_cons] at h
    simp only [diffOn, List.filterMap_cons]
    by_cases hab : a f = b f
    · rw [if_pos hab]
      exact ih h.2
    · rw [if_neg hab]
      refine List.Pairwise.cons ?_ (ih h.2)
      intro e he
      have := (diffOn_mem fs a b e).mp he
      simp only
      intro hc
      exact h.1 (by rw [hc]; exact this.1)

/-- C8: the combine protocol refines sequential cherry-picking.  Given an
ordered selection with resolved merge parents, represented by its content
changes `ps` (oldest first), the combine protocol cherry-picks `ps` onto a
temporary branch at the base tree `base` (yielding working tree `W`),
soft-resets to the base and commits, producing a single combined commit
whose content change is `diffOn files base W`.  If cherry-picking the
selection individually and sequentially onto a clean target tree `T`
succeeds with result `T1`, then cherry-picking the single combined commit
onto the same starting point `T` also succeeds, and the resulting working
tree is identical (`files` is any duplicate-free universe containing every
touched file). -/
theorem C8_combined_commit_equals_sequential (base W T T1 : Tree)
    (ps : List (List PatchEntry)) (files : List String) (hnd : files.Nodup)
    (hcov : ∀ p ∈ ps, ∀ e ∈ p, e.file ∈ files)
    (hW : seqApply base ps = some W) (hT : seqApply T ps = some T1) :
    ∃ T2, applyPatch T (diffOn files base W) = some T2 ∧ ∀ f, T2 f = T1 f := by
  have hinv := seqApply_inv ps base T W T1 hW hT
  have hdist := diffOn_pairwise files base W hnd
  have hpre : ∀ e ∈ diffOn files base W, T e.file = e.before := by
    intro e he
    obtain ⟨_, hne, hbe, _⟩ := (diffOn_mem files base W e).mp he
    rw [hbe]
    exact ((hinv e.file).2 (fun hc => hne hc.symm)).1
  obtain ⟨T2, happ, hafter, huntouched⟩ := applyPatch_distinct _ T hdist hpre
  refine ⟨T2, happ, ?_⟩
  intro f
  by_cases hf : base f = W f
  · have h2 : T2 f = T f := by
      refine huntouched f ?_
      intro e he hef
      obtain ⟨_, hne, _, _⟩ := (diffOn_mem files base W e).mp he
      rw [hef] at hne
      exact hne hf
    rw [h2, (hinv f).1 hf.symm]
  · have hfin : f ∈ files := by
      by_contra hnf
      refine hf (seqApply_untouched ps base W f hW ?_).symm
      intro p hp e he hef
      exact hnf (hef ▸ hcov p hp e he)
    have hmem : (⟨f, base f, W f⟩ : PatchEntry) ∈ diffOn files base W :=
      (diffOn_mem files base W ⟨f, base f, W f⟩).mpr ⟨hfin, hf, rfl, rfl⟩
    have h2 := hafter _ hmem
    simp only at h2
    rw [h2, ((hinv f).2 (fun hc => hf hc.symm)).2]

/-- Witness for C8: two commits each rewriting the same file, replayed
onto a target equal to the base. -/
theorem C8_combined_commit_equals_sequential_witness :
    (["f"] : List String).Nodup ∧
    (∀ p ∈ [[PatchEntry.mk "f" "A" "B"], [PatchEntry.mk "f" "B" "C"]],
      ∀ e ∈ p, e.file ∈ ["f"]) ∧
    seqApply (fun _ => "A") [[PatchEntry.mk "f" "A" "B"], [PatchEntry.mk "f" "B" "C"]] =
      some (fun f => if f = "f" then "C" else if f = "f" then "B" else "A") ∧
    ∃ T2, applyPatch (fun _ => "A")
        (diffOn ["f"] (fun _ => "A")
          (fun f => if f = "f" then "C" else if f = "f" then "B" else "A")) = some T2 ∧
      ∀ f, T2 f = (fun f => if f = "f" then "C" else if f = "f" then "B" else "A") f :=
  ⟨by decide, by decide, rfl,
    C8_combined_commit_equals_sequential (fun _ => "A")
      (fun f => if f = "f" then "C" else if f = "f" then "B" else "A")
      (fun _ => "A")
      (fun f => if f = "f" then "C" else if f = "f" then "B" else "A")
      [[PatchEntry.mk "f" "A" "B"], [PatchEntry.mk "f" "B" "C"]] ["f"]
      (by decide) (by decide) rfl rfl⟩

/-! ### Structural lemmas about the engine interpreters -/

@[simp] theorem issue_trace (env : Env) (tr : List Ev) (st : RepoState) (c : Cmd) :
    (issue env tr st c).trace = tr ++ [Ev.git c] := rfl

@[simp] theorem issue_ok (env : Env) (tr : List Ev) (st : RepoState) (c : Cmd) :
    (issue env tr st c).ok = cmdOk env tr st c := rfl

theorem issue_state (env : Env) (tr : List Ev) (st : RepoState) (c : Cmd) :
    (issue env tr st c).state = if cmdOk env tr st c then applyCmd st c else st := rfl

/-- Events emitted while collecting merge-parent choices: read-only log
commands and the interactive prompts. -/
def PromptShape (e : Ev) : Prop :=
  (∃ h, e = Ev.git (.logParents h)) ∨ (∃ h, e = Ev.git (.logSubject h)) ∨
    ∃ h, e = Ev.promptMerge h

/-- Events emitted by the per-target replay loop on behalf of target
branch `b`. -/
def EvShape (e : Ev) (b : String) : Prop :=
  e = Ev.git (.checkout b) ∨ (∃ m h, e = Ev.git (.cherryPick b m h)) ∨
    e = Ev.git (.push b)

theorem promptEvents_shape (env : Env) (c : String) :
    ∀ e ∈ promptEvents env c, PromptShape e := by
  intro e he
  rw [promptEvents] at he
  rcases List.mem_cons.mp he with rfl | he2
  · exact Or.inl ⟨c, rfl⟩
  · rcases List.mem_append.mp he2 with he3 | he4
    · obtain ⟨p, _, rfl⟩ := List.mem_map.mp he3
      exact Or.inr (Or.inl ⟨p, rfl⟩)
    · rw [List.mem_singleton.mp he4]
      exact Or.inr (Or.inr ⟨c, rfl⟩)

theorem resolveMerges_shape (env : Env) :
    ∀ (cs : List String), ∀ e ∈ (resolveMerges env cs).1, PromptShape e := by
  intro cs
  induction cs with
  | nil => intro e he; simp [resolveMerges] at he
  | cons c rest ih =>
    intro e he
    rw [resolveMerges] at he
    by_cases hm : (env.parents c).length > 1
    · rw [if_pos hm] at he
      cases hch : promptChoice env c with
      | none =>
        rw [hch] at he
        exact promptEvents_shape env c e he
      | some k =>
        rw [hch] at he
        rcases List.mem_append.mp he with h1 | h2
        · exact promptEvents_shape env c e h1
        · exact ih e h2
    · rw [if_neg hm] at he
      exact ih e he

theorem promptShape_evPick (e : Ev) (h : PromptShape e) (b : String) :
    evPick b e = none := by
  rcases h with ⟨x, rfl⟩ | ⟨x, rfl⟩ | ⟨x, rfl⟩ <;> rfl

theorem promptShape_not_mut (e : Ev) (h : PromptShape e) : e.isMut = false := by
  rcases h with ⟨x, rfl⟩ | ⟨x, rfl⟩ | ⟨x, rfl⟩ <;> rfl

theorem evShape_not_prompt (e : Ev) (b : String) (h : EvShape e b) :
    e.isPrompt = false := by
  rcases h with rfl | ⟨m, x, rfl⟩ | rfl <;> rfl

theorem evShape_evPick_ne (e : Ev) (b b2 : String) (hne : b ≠ b2) (h : EvShape e b) :
    evPick b2 e = none := by
  rcases h with rfl | ⟨m, x, rfl⟩ | rfl
  · rfl
  · rw [evPick, if_neg hne]
  · rfl

theorem picksOn_append (a b : List Ev) (br : String) :
    picksOn (a ++ b) br = picksOn a br ++ picksOn b br :=
  List.filterMap_append a b (evPick br)

theorem picksOn_nil_of_promptShape (tr : List Ev) (h : ∀ e ∈ tr, PromptShape e)
    (b : String) : picksOn tr b = [] := by
  rw [picksOn, List.filterMap_eq_nil_iff]
  intro e he
  exact promptShape_evPick e (h e he) b

theorem picksOn_nil_of_evShape (tr : List Ev) (b b2 : String) (hne : b ≠ b2)
    (h : ∀ e ∈ tr, EvShape e b) : picksOn tr b2 = [] := by
  rw [picksOn, List.filterMap_eq_nil_iff]
  intro e he
  exact evShape_evPick_ne e b b2 hne (h e he)

theorem picksOn_nil_of_shapes (new : List Ev) (b : String)
    (h : ∀ e ∈ new, ∃ b2, b2 ≠ b ∧ EvShape e b2) : picksOn new b = [] := by
  rw [picksOn, List.filterMap_eq_nil_iff]
  intro e he
  obtain ⟨b2, hne, hsh⟩ := h e he
  exact evShape_evPick_ne e b2 b hne hsh

theorem picksOn_pickEvs (b : String) (mp : String → Option Nat) (l : List String) :
    picksOn (l.map (fun c => Ev.git (.cherryPick b (mp c) c))) b = l := by
  induction l with
  | nil => rfl
  | cons c cs ih =>
    simp only [List.map_cons, picksOn, List.filterMap_cons] at *
    rw [evPick, if_pos rfl]
    rw [ih]

theorem pickLoop_cons (env : Env) (mp : String → Option Nat) (b c : String)
    (cs : List String) (tr : List Ev) (st : RepoState) :
    pickLoop env mp b (c :: cs) tr st =
      if cmdOk env tr st (.cherryPick b (mp c) c) = true then
        pickLoop env mp b cs (tr ++ [Ev.git (.cherryPick b (mp c) c)]) st
      else ⟨tr ++ [Ev.git (.cherryPick b (mp c) c)], st, false⟩ := by
  rw [pickLoop]
  by_cases hok : cmdOk env tr st (.cherryPick b (mp c) c) = true
  · simp only [issue, hok, if_true, applyCmd, if_pos rfl]
  · have hok2 : cmdOk env tr st (.cherryPick b (mp c) c) = false :=
      Bool.not_eq_true _ ▸ Bool.eq_false_iff.mpr (fun hc => hok hc)
    simp only [issue, hok2, if_false, if_neg hok, Bool.false_eq_true, applyCmd]

theorem pickLoop_spec (env : Env) (mp : String → Option Nat) (b : String) :
    ∀ (commits : List String) (tr : List Ev) (st : RepoState),
      ∃ k, k ≤ commits.length ∧
        (pickLoop env mp b commits tr st).trace =
          tr ++ (commits.take k).map (fun c => Ev.git (.cherryPick b (mp c) c)) ∧
        (pickLoop env mp b commits tr st).state = st ∧
        ((pickLoop env mp b commits tr st).ok = true → k = commits.length) := by
  intro commits
  induction commits with
  | nil =>
    intro tr st
    refine ⟨0, Nat.le_refl 0, by simp [pickLoop], by simp [pickLoop], fun _ => rfl⟩
  | cons c cs ih =>
    intro tr st
    rw [pickLoop_cons]
    by_cases hok : cmdOk env tr st (.cherryPick b (mp c) c) = true
    · rw [if_pos hok]
      obtain ⟨k, hk, htr, hst, hfin⟩ := ih (tr ++ [Ev.git (.cherryPick b (mp c) c)]) st
      refine ⟨k + 1, by simpa using Nat.succ_le_succ hk, ?_, hst, ?_⟩
      · rw [htr, List.take_succ_cons, List.map_cons, List.append_assoc,
          List.singleton_append]
      · intro hfin2
        rw [List.length_cons, hfin hfin2]
    · rw [if_neg hok]
      refine ⟨1, by simp, ?_, rfl, ?_⟩
      · simp [List.take_succ_cons]
      · intro hc
        exact absurd hc (by simp)

theorem issue_state_push (env : Env) (tr : List Ev) (st : RepoState) (b : String) :
    (issue env tr st (.push b)).state = st := by
  rw [issue_state]
  by_cases h : cmdOk env tr st (.push b) = true
  · rw [if_pos h]; rfl
  · rw [if_neg h]

theorem replayTarget_eq (env : Env) (mp : String → Option Nat)
    (commits : List String) (push : Bool) (b : String) (tr : List Ev)
    (st : RepoState) :
    replayTarget env mp commits push b tr st =
      if cmdOk env tr st (.checkout b) = true then
        (if (pickLoop env mp b commits (tr ++ [Ev.git (.checkout b)])
              (RepoState.mk b st.branches)).ok = true then
          (if push = true then
            issue env (pickLoop env mp b commits (tr ++ [Ev.git (.checkout b)])
                (RepoState.mk b st.branches)).trace
              (pickLoop env mp b commits (tr ++ [Ev.git (.checkout b)])
                (RepoState.mk b st.branches)).state (.push b)
          else pickLoop env mp b commits (tr ++ [Ev.git (.checkout b)])
            (RepoState.mk b st.branches))
        else pickLoop env mp b commits (tr ++ [Ev.git (.checkout b)])
          (RepoState.mk b st.branches))
      else StepRes.mk (tr ++ [Ev.git (.checkout b)]) st false := by
  rw [replayTarget]
  by_cases hco : cmdOk env tr st (.checkout b) = true
  · simp only [issue_ok, issue_trace, issue_state, hco, if_true, applyCmd]
  · have hco2 : cmdOk env tr st (.checkout b) = false := by
      cases hcv : cmdOk env tr st (.checkout b)
      · rfl
      · exact absurd hcv hco
    simp only [issue_ok, issue_trace, issue_state, hco2, Bool.false_eq_true, if_false]
    simp only [issue, hco2, Bool.false_eq_true, if_false]

theorem replayTarget_spec (env : Env) (mp : String → Option Nat)
    (commits : List String) (push : Bool) (b : String) (tr : List Ev)
    (st : RepoState) :
    ∃ new, (replayTarget env mp commits push b tr st).trace = tr ++ new ∧
      (replayTarget env mp commits push b tr st).state.branches = st.branches ∧
      (∀ e ∈ new, EvShape e b) ∧
      picksOn new b <+: commits ∧
      ((replayTarget env mp commits push b tr st).ok = true →
        picksOn new b = commits) := by
  have hcop : picksOn [Ev.git (.checkout b)] b = [] := rfl
  have hpup : picksOn [Ev.git (.push b)] b = [] := rfl
  rw [replayTarget_eq]
  by_cases hco : cmdOk env tr st (.checkout b) = true
  · rw [if_pos hco]
    obtain ⟨k, hk, htr, hst, hfin⟩ :=
      pickLoop_spec env mp b commits (tr ++ [Ev.git (.checkout b)])
        (RepoState.mk b st.branches)
    by_cases hpk : (pickLoop env mp b commits (tr ++ [Ev.git (.checkout b)])
        (RepoState.mk b st.branches)).ok = true
    · rw [if_pos hpk]
      have hkfull := hfin hpk
      subst hkfull
      rw [List.take_length] at htr
      by_cases hpush : push = true
      · rw [if_pos hpush]
        refine ⟨[Ev.git (.checkout b)] ++
          commits.map (fun c => Ev.git (.cherryPick b (mp c) c)) ++ [Ev.git (.push b)],
          ?_, ?_, ?_, ?_, ?_⟩
        · rw [issue_trace, htr]; simp [List.append_assoc]
        · rw [issue_state_push, hst]
        · intro e he
          rcases List.mem_append.mp he with h1 | h2
          · rcases List.mem_append.mp h1 with h3 | h4
            · rw [List.mem_singleton.mp h3]; exact Or.inl rfl
            · obtain ⟨c, _, rfl⟩ := List.mem_map.mp h4
              exact Or.inr (Or.inl ⟨mp c, c, rfl⟩)
          · rw [List.mem_singleton.mp h2]; exact Or.inr (Or.inr rfl)
        · rw [picksOn_append, picksOn_append, picksOn_pickEvs, hcop, hpup,
            List.nil_append, List.append_nil]
        · intro _
          rw [picksOn_append, picksOn_append, picksOn_pickEvs, hcop, hpup,
            List.nil_append, List.append_nil]
      · rw [if_neg hpush]
        refine ⟨[Ev.git (.checkout b)] ++
          commits.map (fun c => Ev.git (.cherryPick b (mp c) c)), ?_, ?_, ?_, ?_, ?_⟩
        · rw [htr]; simp [List.append_assoc]
        · rw [hst]
        · intro e he
          rcases List.mem_append.mp he with h1 | h2
          · rw [List.mem_singleton.mp h1]; exact Or.inl rfl
          · obtain ⟨c, _, rfl⟩ := List.mem_map.mp h2
            exact Or.inr (Or.inl ⟨mp c, c, rfl⟩)
        · rw [picksOn_append, picksOn_pickEvs, hcop, List.nil_append]
        · intro _
          rw [picksOn_append, picksOn_pickEvs, hcop, List.nil_append]
    · rw [if_neg hpk]
      refine ⟨[Ev.git (.checkout b)] ++
        (commits.take k).map (fun c => Ev.git (.cherryPick b (mp c) c)), ?_, ?_, ?_, ?_, ?_⟩
      · rw [htr]; simp [List.append_assoc]
      · rw [hst]
      · intro e he
        rcases List.mem_append.mp he with h1 | h2
        · rw [List.mem_singleton.mp h1]; exact Or.inl rfl
        · obtain ⟨c, _, rfl⟩ := List.mem_map.mp h2
          exact Or.inr (Or.inl ⟨mp c, c, rfl⟩)
      · rw [picksOn_append, picksOn_pickEvs, hcop, List.nil_append]
        exact List.take_prefix k commits
      · intro hc
        exact absurd hc hpk
  · rw [if_neg hco]
    refine ⟨[Ev.git (.checkout b)], rfl, rfl, ?_, ?_, ?_⟩
    · intro e he
      rw [List.mem_singleton.mp he]; exact Or.inl rfl
    · rw [hcop]; exact List.nil_prefix
    · intro hc
      exact absurd hc (by simp)

/-- The number of targets the per-target loop visited, computed from where
it stopped (`none`: all of them; `some j`: targets up to offset `j`,
counted from starting index `i`). -/
def cutOf (fi : Option Nat) (i len : Nat) : Nat :=
  match fi with
  | none => len
  | some j => j - i + 1

theorem targetsLoop_cons (env : Env) (mp : String → Option Nat)
    (commits : List String) (push : Bool) (b : String) (bs : List String)
    (i : Nat) (tr : List Ev) (st : RepoState) :
    targetsLoop env mp commits push (b :: bs) i tr st =
      if (replayTarget env mp commits push b tr st).ok = true then
        targetsLoop env mp commits push bs (i + 1)
          (replayTarget env mp commits push b tr st).trace
          (replayTarget env mp commits push b tr st).state
      else ⟨(replayTarget env mp commits push b tr st).trace,
        (replayTarget env mp commits push b tr st).state, some i⟩ := by
  rw [targetsLoop]

theorem targetsLoop_spec (env : Env) (mp : String → Option Nat)
    (commits : List String) (push : Bool) :
    ∀ (ts : List String) (i : Nat) (tr : List Ev) (st : RepoState),
      ∃ new,
        (targetsLoop env mp commits push ts i tr st).trace = tr ++ new ∧
        (targetsLoop env mp commits push ts i tr st).state.branches = st.branches ∧
        (∀ j, (targetsLoop env mp commits push ts i tr st).failedIdx = some j →
          i ≤ j ∧ j - i < ts.length) ∧
        (∀ e ∈ new, ∃ b, b ∈ ts.take
          (cutOf (targetsLoop env mp commits push ts i tr st).failedIdx i ts.length) ∧
          EvShape e b) ∧
        (ts.Nodup → ∀ m (hm : m < ts.length),
          picksOn new (ts.get ⟨m, hm⟩) <+: commits ∧
          ((targetsLoop env mp commits push ts i tr st).failedIdx = none →
            picksOn new (ts.get ⟨m, hm⟩) = commits)) := by
  intro ts
  induction ts with
  | nil =>
    intro i tr st
    refine ⟨[], by simp [targetsLoop], rfl, ?_, ?_, ?_⟩
    · intro j hj
      simp [targetsLoop] at hj
    · intro e he
      simp at he
    · intro _ m hm
      exact absurd hm (by simp)
  | cons b bs ih =>
    intro i tr st
    rw [targetsLoop_cons]
    obtain ⟨nb, hbtr, hbbr, hbshape, hbpre, hbfull⟩ :=
      replayTarget_spec env mp commits push b tr st
    by_cases hok : (replayTarget env mp commits push b tr st).ok = true
    · rw [if_pos hok]
      obtain ⟨nr, hrtr, hrbr, hrfail, hrshape, hrpicks⟩ :=
        ih (i + 1) (replayTarget env mp commits push b tr st).trace
          (replayTarget env mp commits push b tr st).state
      have hcut : cutOf (targetsLoop env mp commits push bs (i + 1)
          (replayTarget env mp commits push b tr st).trace
          (replayTarget env mp commits push b tr st).state).failedIdx i (b :: bs).length =
          cutOf (targetsLoop env mp commits push bs (i + 1)
            (replayTarget env mp commits push b tr st).trace
            (replayTarget env mp commits push b tr st).state).failedIdx (i + 1) bs.length + 1 := by
        cases hfi : (targetsLoop env mp commits push bs (i + 1)
            (replayTarget env mp commits push b tr st).trace
            (replayTarget env mp commits push b tr st).state).failedIdx with
        | none => simp [cutOf]
        | some j =>
          obtain ⟨h1, _⟩ := hrfail j hfi
          simp only [cutOf]
          omega
      refine ⟨nb ++ nr, ?_, ?_, ?_, ?_, ?_⟩
      · rw [hrtr, hbtr, List.append_assoc]
      · rw [hrbr, hbbr]
      · intro j hj
        obtain ⟨h1, h2⟩ := hrfail j hj
        refine ⟨by omega, ?_⟩
        simp only [List.length_cons]
        omega
      · intro e he
        rw [hcut, List.take_succ_cons]
        rcases List.mem_append.mp he with h1 | h2
        · exact ⟨b, List.mem_cons_self b _, hbshape e h1⟩
        · obtain ⟨b2, hb2, hsh⟩ := hrshape e h2
          exact ⟨b2, List.mem_cons_of_mem b hb2, hsh⟩
      · intro hnd m hm
        rw [List.nodup_cons] at hnd
        cases m with
        | zero =>
          have hget : (b :: bs).get ⟨0, hm⟩ = b := rfl
          rw [hget, picksOn_append]
          have hnr : picksOn nr b = [] := by
            refine picksOn_nil_of_shapes nr b ?_
            intro e he
            obtain ⟨b2, hb2, hsh⟩ := hrshape e he
            have hb2mem : b2 ∈ bs := List.mem_of_mem_take hb2
            exact ⟨b2, fun hc => hnd.1 (hc ▸ hb2mem), hsh⟩
          rw [hnr, List.append_nil]
          exact ⟨hbpre, fun _ => hbfull hok⟩
        | succ m2 =>
          have hm2 : m2 < bs.length := by
            simpa using Nat.lt_of_succ_lt_succ hm
          have hget : (b :: bs).get ⟨m2 + 1, hm⟩ = bs.get ⟨m2, hm2⟩ :=
            List.get_cons_succ
          rw [hget, picksOn_append]
          have hnb : picksOn nb (bs.get ⟨m2, hm2⟩) = [] := by
            refine picksOn_nil_of_evShape nb b _ ?_ hbshape
            intro hc
            exact hnd.1 (hc ▸ List.get_mem bs m2 hm2)
          rw [hnb, List.nil_append]
          exact hrpicks hnd.2 m2 hm2
    · rw [if_neg hok]
      refine ⟨nb, hbtr, hbbr, ?_, ?_, ?_⟩
      · intro j hj
        simp only [Option.some.injEq] at hj
        subst hj
        simp
      · intro e he
        simp only [cutOf]
        have hone : i - i + 1 = 1 := by omega
        rw [hone, List.take_succ_cons, List.take_zero]
        exact ⟨b, List.mem_singleton.mpr rfl, hbshape e he⟩
      · intro hnd m hm
        rw [List.nodup_cons] at hnd
        cases m with
        | zero =>
          have hget : (b :: bs).get ⟨0, hm⟩ = b := rfl
          rw [hget]
          exact ⟨hbpre, fun hc => by simp at hc⟩
        | succ m2 =>
          have hm2 : m2 < bs.length := by
            simpa using Nat.lt_of_succ_lt_succ hm
          have hget : (b :: bs).get ⟨m2 + 1, hm⟩ = bs.get ⟨m2, hm2⟩ :=
            List.get_cons_succ
          rw [hget]
          have hnb : picksOn nb (bs.get ⟨m2, hm2⟩) = [] := by
            refine picksOn_nil_of_evShape nb b _ ?_ hbshape
            intro hc
            exact hnd.1 (hc ▸ List.get_mem bs m2 hm2)
          rw [hnb]
          exact ⟨List.nil_prefix, fun hc => by simp at hc⟩

/-! ### Run lemmas: the four exit paths of `propagate_commit` -/

theorem issue_state_id (env : Env) (tr : List Ev) (st : RepoState) (c : Cmd)
    (hid : applyCmd st c = st) : (issue env tr st c).state = st := by
  rw [issue_state]
  by_cases h : cmdOk env tr st c = true
  · rw [if_pos h, hid]
  · rw [if_neg h]

theorem propagate_commit_individual_decline (env : Env) (st0 : RepoState)
    (field0 : String) (selection targets : List String) (push confirm : Bool)
    (evs : List Ev) (hrm : resolveMerges env selection.reverse = (evs, none)) :
    propagate_commit_individual env st0 field0 selection targets push confirm =
      ⟨evs, [], .cancelled, [], st0, field0⟩ := by
  simp only [propagate_commit_individual]
  rw [hrm]

theorem propagate_commit_individual_noconfirm (env : Env) (st0 : RepoState)
    (field0 : String) (selection targets : List String) (push : Bool)
    (evs : List Ev) (mps : List (String × Nat))
    (hrm : resolveMerges env selection.reverse = (evs, some mps)) :
    propagate_commit_individual env st0 field0 selection targets push false =
      ⟨evs, [], .cancelled, [], st0, field0⟩ := by
  simp only [propagate_commit_individual]
  rw [hrm]
  rfl

theorem propagate_commit_individual_capfail (env : Env) (st0 : RepoState)
    (field0 : String) (selection targets : List String) (push : Bool)
    (evs : List Ev) (mps : List (String × Nat))
    (hrm : resolveMerges env selection.reverse = (evs, some mps))
    (hcap : cmdOk env evs st0 .revParseAbbrevHead = false) :
    propagate_commit_individual env st0 field0 selection targets push true =
      ⟨evs ++ [Ev.git .revParseAbbrevHead],
        (teardownInd env (evs ++ [Ev.git .revParseAbbrevHead]) st0 field0).events,
        .raised,
        (teardownInd env (evs ++ [Ev.git .revParseAbbrevHead]) st0 field0).warnings,
        (teardownInd env (evs ++ [Ev.git .revParseAbbrevHead]) st0 field0).state,
        field0⟩ := by
  simp only [propagate_commit_individual]
  rw [hrm]
  simp only [issue_ok, issue_trace, issue_state, hcap, Bool.false_eq_true, if_false,
    Bool.true_eq_false, reduceIte]

theorem propagate_commit_individual_run (env : Env) (st0 : RepoState)
    (field0 : String) (selection targets : List String) (push : Bool)
    (evs : List Ev) (mps : List (String × Nat))
    (hrm : resolveMerges env selection.reverse = (evs, some mps))
    (hcap : cmdOk env evs st0 .revParseAbbrevHead = true) :
    propagate_commit_individual env st0 field0 selection targets push true =
      ⟨(targetsLoop env (lookupMP mps) selection.reverse push targets 0
          (evs ++ [Ev.git .revParseAbbrevHead]) st0).trace,
        (teardownInd env
          (targetsLoop env (lookupMP mps) selection.reverse push targets 0
            (evs ++ [Ev.git .revParseAbbrevHead]) st0).trace
          (targetsLoop env (lookupMP mps) selection.reverse push targets 0
            (evs ++ [Ev.git .revParseAbbrevHead]) st0).state
          st0.currentBranch).events,
        .finished (targetsLoop env (lookupMP mps) selection.reverse push targets 0
          (evs ++ [Ev.git .revParseAbbrevHead]) st0).failedIdx,
        (teardownInd env
          (targetsLoop env (lookupMP mps) selection.reverse push targets 0
            (evs ++ [Ev.git .revParseAbbrevHead]) st0).trace
          (targetsLoop env (lookupMP mps) selection.reverse push targets 0
            (evs ++ [Ev.git .revParseAbbrevHead]) st0).state
          st0.currentBranch).warnings,
        (teardownInd env
          (targetsLoop env (lookupMP mps) selection.reverse push targets 0
            (evs ++ [Ev.git .revParseAbbrevHead]) st0).trace
          (targetsLoop env (lookupMP mps) selection.reverse push targets 0
            (evs ++ [Ev.git .revParseAbbrevHead]) st0).state
          st0.currentBranch).state,
        st0.currentBranch⟩ := by
  simp only [propagate_commit_individual]
  rw [hrm]
  simp only [issue_ok, issue_trace, issue_state, hcap, if_true, Bool.true_eq_false,
    reduceIte, applyCmd]

theorem teardownInd_events (env : Env) (tr : List Ev) (st : RepoState)
    (field : String) (hf : field ≠ "") :
    (teardownInd env tr st field).events = [Ev.git (.checkout field)] := by
  rw [teardownInd, if_neg hf]

theorem teardownInd_warnings (env : Env) (tr : List Ev) (st : RepoState)
    (field : String) (hf : field ≠ "") :
    (teardownInd env tr st field).warnings =
      if cmdOk env tr st (.checkout field) = true then [] else [warnRestoreInd] := by
  rw [teardownInd, if_neg hf]

theorem nodup_get_not_mem_take (l : List String) (hnd : l.Nodup) (k j : Nat)
    (hj : j < l.length) (hkj : k ≤ j) : l.get ⟨j, hj⟩ ∉ l.take k := by
  intro hmem
  rw [List.mem_take_iff_getElem] at hmem
  obtain ⟨idx, hidx, heq⟩ := hmem
  have hidxk : idx < k := lt_of_lt_of_le hidx (min_le_left _ _)
  have hidxl : idx < l.length := lt_of_lt_of_le hidx (min_le_right _ _)
  have hfe : (⟨idx, hidxl⟩ : Fin l.length) = ⟨j, hj⟩ := by
    apply List.nodup_iff_injective_get.mp hnd
    rw [List.get_eq_getElem, List.get_eq_getElem]
    simpa using heq
  have hij : idx = j := congrArg Fin.val hfe
  omega

theorem promptShape_ne_checkout (e : Ev) (h : PromptShape e) (x : String) :
    e ≠ Ev.git (.checkout x) := by
  rcases h with ⟨y, rfl⟩ | ⟨y, rfl⟩ | ⟨y, rfl⟩ <;> simp

theorem evShape_checkout_eq (e : Ev) (b x : String) (hsh : EvShape e b)
    (hce : e = Ev.git (.checkout x)) : x = b := by
  rcases hsh with rfl | ⟨m, y, rfl⟩ | rfl <;> simp_all

theorem teardownInd_events_sub (env : Env) (tr : List Ev) (st : RepoState)
    (field : String) :
    ∀ e ∈ (teardownInd env tr st field).events, e = Ev.git (.checkout field) := by
  intro e he
  rw [teardownInd] at he
  by_cases hf : field = ""
  · rw [if_pos hf] at he
    simp at he
  · rw [if_neg hf] at he
    simpa using he

/-- C1: in the multi-commit individual path, the engine reverses the
caller-supplied (newest-first) selection before replay, so the cherry-pick
sequence recorded for every target branch is a prefix of
`selection.reverse` (oldest first), and on a fully successful run it
equals `selection.reverse` for every target — the same relative order for
every target. -/
theorem C1_individual_replay_reversed (env : Env) (st0 : RepoState)
    (field0 : String) (selection targets : List String) (push confirm : Bool)
    (hnd : targets.Nodup) :
    ∀ m (hm : m < targets.length),
      picksOn (propagate_commit_individual env st0 field0 selection targets push
        confirm).mainTrace (targets.get ⟨m, hm⟩) <+: selection.reverse ∧
      ((propagate_commit_individual env st0 field0 selection targets push
          confirm).outcome = .finished none →
        picksOn (propagate_commit_individual env st0 field0 selection targets push
          confirm).mainTrace (targets.get ⟨m, hm⟩) = selection.reverse) := by
  intro m hm
  rcases hrm : resolveMerges env selection.reverse with ⟨evs, ro⟩
  have hpev : ∀ e ∈ evs, PromptShape e := by
    have hall := resolveMerges_shape env selection.reverse
    rw [hrm] at hall
    exact hall
  have hcapnil : ∀ b2, picksOn [Ev.git Cmd.revParseAbbrevHead] b2 = [] := fun _ => rfl
  cases ro with
  | none =>
    rw [propagate_commit_individual_decline env st0 field0 selection targets push
      confirm evs hrm]
    refine ⟨?_, ?_⟩
    · rw [picksOn_nil_of_promptShape evs hpev]
      exact List.nil_prefix
    · intro hc
      exact absurd hc (by simp)
  | some mps =>
    cases confirm with
    | false =>
      rw [propagate_commit_individual_noconfirm env st0 field0 selection targets push
        evs mps hrm]
      refine ⟨?_, ?_⟩
      · rw [picksOn_nil_of_promptShape evs hpev]
        exact List.nil_prefix
      · intro hc
        exact absurd hc (by simp)
    | true =>
      by_cases hcap : cmdOk env evs st0 .revParseAbbrevHead = true
      · rw [propagate_commit_individual_run env st0 field0 selection targets push
          evs mps hrm hcap]
        obtain ⟨new, htr, _, _, _, hpicks⟩ :=
          targetsLoop_spec env (lookupMP mps) selection.reverse push targets 0
            (evs ++ [Ev.git .revParseAbbrevHead]) st0
        simp only [htr]
        rw [picksOn_append, picksOn_append, picksOn_nil_of_promptShape evs hpev,
          hcapnil, List.nil_append, List.nil_append]
        obtain ⟨hpre, hfull⟩ := hpicks hnd m hm
        refine ⟨hpre, ?_⟩
        intro hout
        simp only [Outcome.finished.injEq] at hout
        exact hfull hout
      · have hcap2 : cmdOk env evs st0 .revParseAbbrevHead = false := by
          cases hcv : cmdOk env evs st0 .revParseAbbrevHead
          · rfl
          · exact absurd hcv hcap
        rw [propagate_commit_individual_capfail env st0 field0 selection targets push
          evs mps hrm hcap2]
        refine ⟨?_, ?_⟩
        · rw [picksOn_append, picksOn_nil_of_promptShape evs hpev, hcapnil,
            List.nil_append]
          exact List.nil_prefix
        · intro hc
          exact absurd hc (by simp)

/-- Witness for C1 at a concrete run: three commits selected newest-first,
two targets, full success. -/
theorem C1_individual_replay_reversed_witness :
    (["main", "rel"] : List String).Nodup ∧
      (0 : Nat) < (["main", "rel"] : List String).length ∧
      (picksOn (propagate_commit_individual
          ⟨fun _ => ["z"], fun _ => some 1, fun _ _ => false, "XH"⟩
          ⟨"dev", ["dev", "main", "rel"]⟩ "" ["c3", "c2", "c1"] ["main", "rel"]
          true true).mainTrace
        ((["main", "rel"] : List String).get ⟨0, by decide⟩) <+:
          (["c3", "c2", "c1"] : List String).reverse ∧
       ((propagate_commit_individual
          ⟨fun _ => ["z"], fun _ => some 1, fun _ _ => false, "XH"⟩
          ⟨"dev", ["dev", "main", "rel"]⟩ "" ["c3", "c2", "c1"] ["main", "rel"]
          true true).outcome = .finished none →
        picksOn (propagate_commit_individual
          ⟨fun _ => ["z"], fun _ => some 1, fun _ _ => false, "XH"⟩
          ⟨"dev", ["dev", "main", "rel"]⟩ "" ["c3", "c2", "c1"] ["main", "rel"]
          true true).mainTrace
          ((["main", "rel"] : List String).get ⟨0, by decide⟩) =
            (["c3", "c2", "c1"] : List String).reverse)) :=
  ⟨by decide, by decide,
    C1_individual_replay_reversed
      ⟨fun _ => ["z"], fun _ => some 1, fun _ _ => false, "XH"⟩
      ⟨"dev", ["dev", "main", "rel"]⟩ "" ["c3", "c2", "c1"] ["main", "rel"]
      true true (by decide) 0 (by decide)⟩

/-- C3: when the per-target loop of `propagate_commit` fails on target
index `i` (any git command of that target's replay — checkout, cherry-pick
or push — exits non-zero), no later target is checked out and no later
target receives any cherry-pick: the loop is exited immediately by the
`except ...: return`, and the `finally` teardown still attempts the
restoration checkout. -/
theorem C3_conflict_aborts_remaining_targets (env : Env) (st0 : RepoState)
    (field0 : String) (selection targets : List String) (push confirm : Bool)
    (hnd : targets.Nodup) (hcur : st0.currentBranch ≠ "") (i : Nat)
    (hout : (propagate_commit_individual env st0 field0 selection targets push
      confirm).outcome = .finished (some i)) :
    (∀ j (hj : j < targets.length), i < j →
      Ev.git (.checkout (targets.get ⟨j, hj⟩)) ∉
        (propagate_commit_individual env st0 field0 selection targets push
          confirm).mainTrace ∧
      picksOn (propagate_commit_individual env st0 field0 selection targets push
        confirm).mainTrace (targets.get ⟨j, hj⟩) = []) ∧
    (propagate_commit_individual env st0 field0 selection targets push
      confirm).teardownTrace = [Ev.git (.checkout st0.currentBranch)] := by
  rcases hrm : resolveMerges env selection.reverse with ⟨evs, ro⟩
  have hpev : ∀ e ∈ evs, PromptShape e := by
    have hall := resolveMerges_shape env selection.reverse
    rw [hrm] at hall
    exact hall
  cases ro with
  | none =>
    rw [propagate_commit_individual_decline env st0 field0 selection targets push
      confirm evs hrm] at hout
    exact absurd hout (by simp)
  | some mps =>
    cases confirm with
    | false =>
      rw [propagate_commit_individual_noconfirm env st0 field0 selection targets push
        evs mps hrm] at hout
      exact absurd hout (by simp)
    | true =>
      by_cases hcap : cmdOk env evs st0 .revParseAbbrevHead = true
      · rw [propagate_commit_individual_run env st0 field0 selection targets push
          evs mps hrm hcap] at hout ⊢
        simp only [Outcome.finished.injEq] at hout
        obtain ⟨new, htr, _, hfail, hshape, _⟩ :=
          targetsLoop_spec env (lookupMP mps) selection.reverse push targets 0
            (evs ++ [Ev.git .revParseAbbrevHead]) st0
        have hcut : cutOf (targetsLoop env (lookupMP mps) selection.reverse push
            targets 0 (evs ++ [Ev.git .revParseAbbrevHead]) st0).failedIdx 0
            targets.length = i + 1 := by
          rw [hout]
          simp [cutOf]
        constructor
        · intro j hj hij
          have hnotin : targets.get ⟨j, hj⟩ ∉ targets.take (i + 1) :=
            nodup_get_not_mem_take targets hnd (i + 1) j hj (by omega)
          constructor
          · intro hmem
            rw [htr] at hmem
            rcases List.mem_append.mp hmem with h1 | h2
            · rcases List.mem_append.mp h1 with h3 | h4
              · exact promptShape_ne_checkout _ (hpev _ h3) _ rfl
              · simp at h4
            · obtain ⟨b, hb, hsh⟩ := hshape _ h2
              rw [hcut] at hb
              have := evShape_checkout_eq _ b (targets.get ⟨j, hj⟩) hsh rfl
              exact hnotin (this ▸ hb)
          · rw [htr, picksOn_append, picksOn_append,
              picksOn_nil_of_promptShape evs hpev]
            have hc1 : picksOn [Ev.git Cmd.revParseAbbrevHead]
                (targets.get ⟨j, hj⟩) = [] := rfl
            rw [hc1, List.nil_append, List.nil_append]
            refine picksOn_nil_of_shapes new _ ?_
            intro e he
            obtain ⟨b, hb, hsh⟩ := hshape e he
            rw [hcut] at hb
            exact ⟨b, fun hc => hnotin (hc ▸ hb), hsh⟩
        · rw [teardownInd_events _ _ _ _ hcur]
      · have hcap2 : cmdOk env evs st0 .revParseAbbrevHead = false := by
          cases hcv : cmdOk env evs st0 .revParseAbbrevHead
          · rfl
          · exact absurd hcv hcap
        rw [propagate_commit_individual_capfail env st0 field0 selection targets push
          evs mps hrm hcap2] at hout
        exact absurd hout (by simp)

/-- Witness for C3: a conflict on the second of three targets. -/
theorem C3_conflict_aborts_remaining_targets_witness :
    (["main", "rel", "extra"] : List String).Nodup ∧
      ("dev" : String) ≠ "" ∧
      (propagate_commit_individual
        ⟨fun _ => ["z"], fun _ => some 1,
          fun _ c => match c with
            | .cherryPick b _ _ => b == "rel"
            | _ => false, "XH"⟩
        ⟨"dev", ["dev", "main", "rel", "extra"]⟩ "" ["c2", "c1"]
        ["main", "rel", "extra"] false true).outcome = .finished (some 1) ∧
      ((∀ j (hj : j < (["main", "rel", "extra"] : List String).length), 1 < j →
        Ev.git (.checkout ((["main", "rel", "extra"] : List String).get ⟨j, hj⟩)) ∉
          (propagate_commit_individual
            ⟨fun _ => ["z"], fun _ => some 1,
              fun _ c => match c with
                | .cherryPick b _ _ => b == "rel"
                | _ => false, "XH"⟩
            ⟨"dev", ["dev", "main", "rel", "extra"]⟩ "" ["c2", "c1"]
            ["main", "rel", "extra"] false true).mainTrace ∧
        picksOn (propagate_commit_individual
            ⟨fun _ => ["z"], fun _ => some 1,
              fun _ c => match c with
                | .cherryPick b _ _ => b == "rel"
                | _ => false, "XH"⟩
            ⟨"dev", ["dev", "main", "rel", "extra"]⟩ "" ["c2", "c1"]
            ["main", "rel", "extra"] false true).mainTrace
          ((["main", "rel", "extra"] : List String).get ⟨j, hj⟩) = []) ∧
      (propagate_commit_individual
        ⟨fun _ => ["z"], fun _ => some 1,
          fun _ c => match c with
            | .cherryPick b _ _ => b == "rel"
            | _ => false, "XH"⟩
        ⟨"dev", ["dev", "main", "rel", "extra"]⟩ "" ["c2", "c1"]
        ["main", "rel", "extra"] false true).teardownTrace =
          [Ev.git (.checkout "dev")]) :=
  ⟨by decide, by decide, by decide,
    C3_conflict_aborts_remaining_targets
      ⟨fun _ => ["z"], fun _ => some 1,
        fun _ c => match c with
          | .cherryPick b _ _ => b == "rel"
          | _ => false, "XH"⟩
      ⟨"dev", ["dev", "main", "rel", "extra"]⟩ "" ["c2", "c1"]
      ["main", "rel", "extra"] false true (by decide) (by decide) 1 (by decide)⟩

/-- Whether an event is one of the rollback commands named by the spec for
the push-failure path: a reset, a revert, or a branch deletion. -/
def isRollbackEv : Ev → Bool
  | .git (.resetSoft _) => true
  | .git (.revertCmd _) => true
  | .git (.branchD _) => true
  | _ => false

/-- C9: `propagate_commit` never issues a reset, revert, or branch
deletion on any path — in particular, after a failed push the
already-applied local commits on the target branch are left in place; the
only command issued after the failure is the restoration checkout of the
teardown. -/
theorem C9_push_failure_no_rollback (env : Env) (st0 : RepoState)
    (field0 : String) (selection targets : List String) (push confirm : Bool) :
    ∀ e, (e ∈ (propagate_commit_individual env st0 field0 selection targets push
          confirm).mainTrace ∨
        e ∈ (propagate_commit_individual env st0 field0 selection targets push
          confirm).teardownTrace) →
      isRollbackEv e = false := by
  have hprompt : ∀ e, PromptShape e → isRollbackEv e = false := by
    intro e he
    rcases he with ⟨y, rfl⟩ | ⟨y, rfl⟩ | ⟨y, rfl⟩ <;> rfl
  have hevsh : ∀ e b, EvShape e b → isRollbackEv e = false := by
    intro e b he
    rcases he with rfl | ⟨m, y, rfl⟩ | rfl <;> rfl
  rcases hrm : resolveMerges env selection.reverse with ⟨evs, ro⟩
  have hpev : ∀ e ∈ evs, PromptShape e := by
    have hall := resolveMerges_shape env selection.reverse
    rw [hrm] at hall
    exact hall
  intro e he
  cases ro with
  | none =>
    rw [propagate_commit_individual_decline env st0 field0 selection targets push
      confirm evs hrm] at he
    rcases he with h1 | h2
    · exact hprompt e (hpev e h1)
    · simp at h2
  | some mps =>
    cases confirm with
    | false =>
      rw [propagate_commit_individual_noconfirm env st0 field0 selection targets push
        evs mps hrm] at he
      rcases he with h1 | h2
      · exact hprompt e (hpev e h1)
      · simp at h2
    | true =>
      by_cases hcap : cmdOk env evs st0 .revParseAbbrevHead = true
      · rw [propagate_commit_individual_run env st0 field0 selection targets push
          evs mps hrm hcap] at he
        obtain ⟨new, htr, _, _, hshape, _⟩ :=
          targetsLoop_spec env (lookupMP mps) selection.reverse push targets 0
            (evs ++ [Ev.git .revParseAbbrevHead]) st0
        rcases he with h1 | h2
        · rw [htr] at h1
          rcases List.mem_append.mp h1 with h3 | h4
          · rcases List.mem_append.mp h3 with h5 | h6
            · exact hprompt e (hpev e h5)
            · rw [List.mem_singleton.mp h6]; rfl
          · obtain ⟨b, _, hsh⟩ := hshape e h4
            exact hevsh e b hsh
        · rw [teardownInd_events_sub _ _ _ _ e h2]; rfl
      · have hcap2 : cmdOk env evs st0 .revParseAbbrevHead = false := by
          cases hcv : cmdOk env evs st0 .revParseAbbrevHead
          · rfl
          · exact absurd hcv hcap
        rw [propagate_commit_individual_capfail env st0 field0 selection targets push
          evs mps hrm hcap2] at he
        rcases he with h1 | h2
        · rcases List.mem_append.mp h1 with h3 | h4
          · exact hprompt e (hpev e h3)
          · rw [List.mem_singleton.mp h4]; rfl
        · rw [teardownInd_events_sub _ _ _ _ e h2]; rfl

/-! ### Run lemmas for `combine_and_propagate` -/

@[simp] theorem issue_state_revParseAbbrevHead (env : Env) (tr : List Ev)
    (st : RepoState) : (issue env tr st .revParseAbbrevHead).state = st :=
  issue_state_id env tr st _ rfl

@[simp] theorem issue_state_revParseHeadHash (env : Env) (tr : List Ev)
    (st : RepoState) : (issue env tr st .revParseHeadHash).state = st :=
  issue_state_id env tr st _ rfl

@[simp] theorem issue_state_revParseFirstParent (env : Env) (tr : List Ev)
    (st : RepoState) (h : String) :
    (issue env tr st (.revParseFirstParent h)).state = st :=
  issue_state_id env tr st _ rfl

@[simp] theorem issue_state_resetSoft (env : Env) (tr : List Ev)
    (st : RepoState) (h : String) : (issue env tr st (.resetSoft h)).state = st :=
  issue_state_id env tr st _ rfl

@[simp] theorem issue_state_commitMsg (env : Env) (tr : List Ev)
    (st : RepoState) (m : String) : (issue env tr st (.commitMsg m)).state = st :=
  issue_state_id env tr st _ rfl

theorem combine_and_propagate_decline (env : Env) (st0 : RepoState)
    (field0 temp msg : String) (selection targets : List String) (push : Bool)
    (evs : List Ev) (hrm : resolveMerges env selection.reverse = (evs, none)) :
    combine_and_propagate env st0 field0 temp msg selection targets push =
      ⟨evs, (teardown_combine env evs st0 field0 temp).events, .cancelled,
        (teardown_combine env evs st0 field0 temp).warnings,
        (teardown_combine env evs st0 field0 temp).state, field0⟩ := by
  simp only [combine_and_propagate, hrm]

theorem combine_and_propagate_capfail (env : Env) (st0 : RepoState)
    (field0 temp msg : String) (selection targets : List String) (push : Bool)
    (evs : List Ev) (mps : List (String × Nat))
    (hrm : resolveMerges env selection.reverse = (evs, some mps))
    (hcap : cmdOk env evs st0 .revParseAbbrevHead = false) :
    combine_and_propagate env st0 field0 temp msg selection targets push =
      ⟨evs ++ [Ev.git .revParseAbbrevHead],
        (teardown_combine env (evs ++ [Ev.git .revParseAbbrevHead]) st0 field0
          temp).events,
        .errored,
        (teardown_combine env (evs ++ [Ev.git .revParseAbbrevHead]) st0 field0
          temp).warnings,
        (teardown_combine env (evs ++ [Ev.git .revParseAbbrevHead]) st0 field0
          temp).state,
        field0⟩ := by
  simp only [combine_and_propagate, hrm, issue_ok, issue_trace,
    issue_state_revParseAbbrevHead, hcap, Bool.false_eq_true, reduceIte]

theorem teardown_combine_head (env : Env) (tr : List Ev) (st : RepoState)
    (field temp : String) (hf : field ≠ "") :
    (teardown_combine env tr st field temp).events.head? =
      some (Ev.git (.checkout field)) := by
  rw [teardown_combine, if_neg hf]
  by_cases h1 : cmdOk env tr st (.checkout field) = true
  · rw [if_pos h1]
    rfl
  · rw [if_neg h1]
    rfl

theorem teardown_combine_warnings_cases (env : Env) (tr : List Ev)
    (st : RepoState) (field temp : String) :
    (teardown_combine env tr st field temp).warnings = [] ∨
      (teardown_combine env tr st field temp).warnings = [warnCleanupCombine] := by
  rw [teardown_combine]
  by_cases hf : field = ""
  · rw [if_pos hf]
    by_cases h : cmdOk env tr st (.branchD temp) = true
    · left
      simp only [h, if_true]
    · right
      simp only [h, if_false]
      rfl
  · rw [if_neg hf]
    by_cases h1 : cmdOk env tr st (.checkout field) = true
    · rw [if_pos h1]
      by_cases h2 : cmdOk env (tr ++ [Ev.git (.checkout field)])
          (applyCmd st (.checkout field)) (.branchD temp) = true
      · left
        simp only [h2, if_true]
      · right
        simp only [h2, if_false]
        rfl
    · rw [if_neg h1]
      right
      rfl

theorem teardown_combine_events_sub (env : Env) (tr : List Ev) (st : RepoState)
    (field temp : String) :
    ∀ e ∈ (teardown_combine env tr st field temp).events,
      e = Ev.git (.checkout field) ∨ e = Ev.git (.branchD temp) := by
  intro e he
  rw [teardown_combine] at he
  by_cases hf : field = ""
  · rw [if_pos hf] at he
    simp only [List.mem_singleton] at he
    exact Or.inr he
  · rw [if_neg hf] at he
    by_cases h1 : cmdOk env tr st (.checkout field) = true
    · rw [if_pos h1] at he
      rcases List.mem_cons.mp he with rfl | he2
      · exact Or.inl rfl
      · simp only [List.mem_singleton] at he2
        exact Or.inr he2
    · rw [if_neg h1] at he
      simp only [List.mem_singleton] at he
      exact Or.inl he

/-- When the teardown of a combine reports no warning, the restoration
checkout and the temp-branch deletion both succeeded, so the temp branch
was in the branch list and has been erased from it. -/
theorem teardown_combine_clean (env : Env) (tr : List Ev) (st : RepoState)
    (field temp : String)
    (hw : (teardown_combine env tr st field temp).warnings = []) :
    temp ∈ st.branches ∧
      (teardown_combine env tr st field temp).state.branches =
        st.branches.erase temp := by
  rw [teardown_combine] at hw ⊢
  by_cases hf : field = ""
  · rw [if_pos hf] at hw ⊢
    by_cases h : cmdOk env tr st (.branchD temp) = true
    · have htemp : temp ∈ st.branches := by
        have h3 := h
        rw [cmdOk] at h3
        simp only [Bool.and_eq_true] at h3
        simpa using h3.1.1
      refine ⟨htemp, ?_⟩
      simp only [h, if_true]
      rfl
    · exact absurd hw (by simp [h])
  · rw [if_neg hf] at hw ⊢
    by_cases h1 : cmdOk env tr st (.checkout field) = true
    · rw [if_pos h1] at hw ⊢
      by_cases h2 : cmdOk env (tr ++ [Ev.git (.checkout field)])
          (applyCmd st (.checkout field)) (.branchD temp) = true
      · have htemp : temp ∈ (applyCmd st (.checkout field)).branches := by
          have h3 := h2
          rw [cmdOk] at h3
          simp only [Bool.and_eq_true] at h3
          simpa using h3.1.1
        rw [applyCmd] at htemp
        refine ⟨htemp, ?_⟩
        simp only [h2, if_true]
        rfl
      · exact absurd hw (by simp [h2])
    · rw [if_neg h1] at hw
      exact absurd hw (by simp)

theorem mem_triple {α : Type} {e a b c : α} (h : e ∈ [a, b, c]) :
    e = a ∨ e = b ∨ e = c := by
  simpa using h

theorem mem_double {α : Type} {e a b : α} (h : e ∈ [a, b]) : e = a ∨ e = b := by
  simpa using h

theorem promptShape_ne_checkoutNew (e : Ev) (h : PromptShape e) (b bb : String) :
    e ≠ Ev.git (.checkoutNew b bb) := by
  rcases h with ⟨y, rfl⟩ | ⟨y, rfl⟩ | ⟨y, rfl⟩ <;> simp

theorem cmdOk_revParseFirstParent_nil (env : Env) (tr : List Ev) (st : RepoState)
    (h : String) (hp : env.parents h = []) :
    cmdOk env tr st (.revParseFirstParent h) = false := by
  rw [cmdOk, hp]
  rfl

/-- Path analysis of `combine_and_propagate` once the merge prompts are
all resolved and the original-branch capture succeeded: every exit path
hands a trace and a repository state to `teardown_combine` with the
captured original branch as the restoration target; the state's branch
list is the initial one, possibly with the temp branch added; the events
after the prompt phase contain no prompts; an uncaught exception happens
only for an empty selection; once the base has been resolved the
checkout of the temporary branch at the first parent of the oldest commit
is in the trace; and a parentless oldest commit makes the run abort as a
caught error before any branch creation. -/
theorem combine_and_propagate_spec (env : Env) (st0 : RepoState)
    (field0 temp msg : String) (selection targets : List String) (push : Bool)
    (evs : List Ev) (mps : List (String × Nat))
    (hrm : resolveMerges env selection.reverse = (evs, some mps))
    (hcap : cmdOk env evs st0 .revParseAbbrevHead = true) :
    ∃ (tr : List Ev) (st : RepoState),
      (combine_and_propagate env st0 field0 temp msg selection targets
        push).mainTrace = tr ∧
      (combine_and_propagate env st0 field0 temp msg selection targets
        push).teardownTrace =
        (teardown_combine env tr st st0.currentBranch temp).events ∧
      (combine_and_propagate env st0 field0 temp msg selection targets
        push).warnings =
        (teardown_combine env tr st st0.currentBranch temp).warnings ∧
      (combine_and_propagate env st0 field0 temp msg selection targets
        push).finalState =
        (teardown_combine env tr st st0.currentBranch temp).state ∧
      (∃ rest, tr = evs ++ rest ∧ ∀ e ∈ rest, e.isPrompt = false) ∧
      (st.branches = st0.branches ∨ st.branches = temp :: st0.branches) ∧
      ((combine_and_propagate env st0 field0 temp msg selection targets
          push).outcome = .raised → selection.reverse = []) ∧
      (∀ first rest2, selection.reverse = first :: rest2 →
        cmdOk env (evs ++ [Ev.git Cmd.revParseAbbrevHead]) st0
          (.revParseFirstParent first) = true →
        Ev.git (.checkoutNew temp ((env.parents first).headD "")) ∈ tr) ∧
      (∀ first rest2, selection.reverse = first :: rest2 →
        env.parents first = [] →
        (combine_and_propagate env st0 field0 temp msg selection targets
          push).outcome = .errored ∧
        ∀ b bb, Ev.git (.checkoutNew b bb) ∉ tr) := by
  have hpev : ∀ e ∈ evs, PromptShape e := by
    have hall := resolveMerges_shape env selection.reverse
    rw [hrm] at hall
    exact hall
  simp only [combine_and_propagate, hrm, issue_ok, issue_trace,
    issue_state_revParseAbbrevHead, issue_state_revParseFirstParent,
    issue_state_resetSoft, issue_state_commitMsg, issue_state_revParseHeadHash,
    hcap, Bool.true_eq_false, reduceIte]
  cases hsel : selection.reverse with
  | nil =>
    simp only []
    refine ⟨_, _, rfl, rfl, rfl, rfl, ?_, Or.inl rfl, ?_, ?_, ?_⟩
    · exact ⟨[Ev.git Cmd.revParseAbbrevHead], rfl, by intro e he; simp at he; rw [he]; rfl⟩
    · intro _; trivial
    · intro first2 rest3 hc
      exact absurd hc (by simp)
    · intro first2 rest3 hc
      exact absurd hc (by simp)
  | cons first rest2 =>
    simp only []
    by_cases hs1 : cmdOk env (evs ++ [Ev.git Cmd.revParseAbbrevHead]) st0
      (.revParseFirstParent first) = true
    · -- base resolved; create the temp branch
      rw [if_neg (by rw [hs1]; simp)]
      by_cases hs2 : cmdOk env ((evs ++ [Ev.git Cmd.revParseAbbrevHead]) ++
          [Ev.git (.revParseFirstParent first)]) st0
          (.checkoutNew temp ((env.parents first).headD "")) = true
      · rw [if_neg (by rw [hs2]; simp)]
        simp only [issue_state, hs2, if_true, applyCmd]
        obtain ⟨k3, hk3, htr3, hst3, hfin3⟩ :=
          pickLoop_spec env (lookupMP mps) temp (first :: rest2)
            (((evs ++ [Ev.git Cmd.revParseAbbrevHead]) ++
              [Ev.git (.revParseFirstParent first)]) ++
              [Ev.git (.checkoutNew temp ((env.parents first).headD ""))])
            ⟨temp, temp :: st0.branches⟩
        by_cases hpk : (pickLoop env (lookupMP mps) temp (first :: rest2)
            (((evs ++ [Ev.git Cmd.revParseAbbrevHead]) ++
              [Ev.git (.revParseFirstParent first)]) ++
              [Ev.git (.checkoutNew temp ((env.parents first).headD ""))])
            ⟨temp, temp :: st0.branches⟩).ok = true
        · rw [if_neg (by rw [hpk]; simp)]
          rw [hst3]
          by_cases hs4 : cmdOk env (pickLoop env (lookupMP mps) temp (first :: rest2)
              (((evs ++ [Ev.git Cmd.revParseAbbrevHead]) ++
                [Ev.git (.revParseFirstParent first)]) ++
                [Ev.git (.checkoutNew temp ((env.parents first).headD ""))])
              ⟨temp, temp :: st0.branches⟩).trace ⟨temp, temp :: st0.branches⟩
              (.resetSoft ((env.parents first).headD "")) = true
          · rw [if_neg (by rw [hs4]; simp)]
            by_cases hs5 : cmdOk env ((pickLoop env (lookupMP mps) temp
                (first :: rest2) (((evs ++ [Ev.git Cmd.revParseAbbrevHead]) ++
                  [Ev.git (.revParseFirstParent first)]) ++
                  [Ev.git (.checkoutNew temp ((env.parents first).headD ""))])
                ⟨temp, temp :: st0.branches⟩).trace ++
                [Ev.git (.resetSoft ((env.parents first).headD ""))])
                ⟨temp, temp :: st0.branches⟩ (.commitMsg msg) = true
            · rw [if_neg (by rw [hs5]; simp)]
              by_cases hs6 : cmdOk env (((pickLoop env (lookupMP mps) temp
                  (first :: rest2) (((evs ++ [Ev.git Cmd.revParseAbbrevHead]) ++
                    [Ev.git (.revParseFirstParent first)]) ++
                    [Ev.git (.checkoutNew temp ((env.parents first).headD ""))])
                  ⟨temp, temp :: st0.branches⟩).trace ++
                  [Ev.git (.resetSoft ((env.parents first).headD ""))]) ++
                  [Ev.git (.commitMsg msg)]) ⟨temp, temp :: st0.branches⟩
                  .revParseHeadHash = true
              · rw [if_neg (by rw [hs6]; simp)]
                obtain ⟨newL, htrL, hbrL, _, hshapeL, _⟩ :=
                  targetsLoop_spec env (fun _ => none) [env.combinedHash] push
                    targets 0
                    ((((pickLoop env (lookupMP mps) temp (first :: rest2)
                      (((evs ++ [Ev.git Cmd.revParseAbbrevHead]) ++
                        [Ev.git (.revParseFirstParent first)]) ++
                        [Ev.git (.checkoutNew temp ((env.parents first).headD ""))])
                      ⟨temp, temp :: st0.branches⟩).trace ++
                      [Ev.git (.resetSoft ((env.parents first).headD ""))]) ++
                      [Ev.git (.commitMsg msg)]) ++ [Ev.git Cmd.revParseHeadHash])
                    ⟨temp, temp :: st0.branches⟩
                refine ⟨_, _, rfl, rfl, rfl, rfl, ?_, ?_, ?_, ?_, ?_⟩
                · refine ⟨[Ev.git Cmd.revParseAbbrevHead,
                    Ev.git (.revParseFirstParent first),
                    Ev.git (.checkoutNew temp ((env.parents first).headD ""))] ++
                    ((first :: rest2).take k3).map
                      (fun c => Ev.git (.cherryPick temp (lookupMP mps c) c)) ++
                    [Ev.git (.resetSoft ((env.parents first).headD "")),
                      Ev.git (.commitMsg msg), Ev.git Cmd.revParseHeadHash] ++ newL,
                    ?_, ?_⟩
                  · rw [htrL, htr3]
                    simp [List.append_assoc]
                  · intro e he
                    rcases List.mem_append.mp he with h1 | h2
                    · rcases List.mem_append.mp h1 with h3 | h4
                      · rcases List.mem_append.mp h3 with h5 | h6
                        · rcases mem_triple h5 with rfl | rfl | rfl
                          · rfl
                          · rfl
                          · rfl
                        · obtain ⟨c, _, rfl⟩ := List.mem_map.mp h6
                          rfl
                      · rcases mem_triple h4 with rfl | rfl | rfl
                        · rfl
                        · rfl
                        · rfl
                    · obtain ⟨b, _, hsh⟩ := hshapeL e h2
                      exact evShape_not_prompt e b hsh
                · right
                  rw [hbrL]
                · intro hc
                  exact absurd hc (by simp)
                · intro first2 rest3 heq _
                  obtain ⟨rfl, _⟩ : first2 = first ∧ rest3 = rest2 := by
                    injection heq with h1 h2
                    exact ⟨h1.symm, h2.symm⟩
                  rw [htrL, htr3]
                  simp
                · intro first2 rest3 heq hpar
                  obtain ⟨rfl, _⟩ : first2 = first ∧ rest3 = rest2 := by
                    injection heq with h1 h2
                    exact ⟨h1.symm, h2.symm⟩
                  exact absurd hs1
                    (by rw [cmdOk_revParseFirstParent_nil env _ _ _ hpar]; simp)
              · rw [if_pos (by
                  cases hcv : cmdOk env (((pickLoop env (lookupMP mps) temp
                      (first :: rest2) (((evs ++ [Ev.git Cmd.revParseAbbrevHead]) ++
                        [Ev.git (.revParseFirstParent first)]) ++
                        [Ev.git (.checkoutNew temp ((env.parents first).headD ""))])
                      ⟨temp, temp :: st0.branches⟩).trace ++
                      [Ev.git (.resetSoft ((env.parents first).headD ""))]) ++
                      [Ev.git (.commitMsg msg)]) ⟨temp, temp :: st0.branches⟩
                      .revParseHeadHash
                  · rfl
                  · exact absurd hcv hs6)]
                refine ⟨_, _, rfl, rfl, rfl, rfl, ?_, Or.inr rfl, ?_, ?_, ?_⟩
                · refine ⟨[Ev.git Cmd.revParseAbbrevHead,
                    Ev.git (.revParseFirstParent first),
                    Ev.git (.checkoutNew temp ((env.parents first).headD ""))] ++
                    ((first :: rest2).take k3).map
                      (fun c => Ev.git (.cherryPick temp (lookupMP mps c) c)) ++
                    [Ev.git (.resetSoft ((env.parents first).headD "")),
                      Ev.git (.commitMsg msg), Ev.git Cmd.revParseHeadHash],
                    ?_, ?_⟩
                  · rw [htr3]
                    simp [List.append_assoc]
                  · intro e he
                    rcases List.mem_append.mp he with h1 | h2
                    · rcases List.mem_append.mp h1 with h3 | h4
                      · rcases mem_triple h3 with rfl | rfl | rfl
                        · rfl
                        · rfl
                        · rfl
                      · obtain ⟨c, _, rfl⟩ := List.mem_map.mp h4
                        rfl
                    · rcases mem_triple h2 with rfl | rfl | rfl
                      · rfl
                      · rfl
                      · rfl
                · intro hc
                  exact absurd hc (by simp)
                · intro first2 rest3 heq _
                  obtain ⟨rfl, _⟩ : first2 = first ∧ rest3 = rest2 := by
                    injection heq with h1 h2
                    exact ⟨h1.symm, h2.symm⟩
                  rw [htr3]
                  simp
                · intro first2 rest3 heq hpar
                  obtain ⟨rfl, _⟩ : first2 = first ∧ rest3 = rest2 := by
                    injection heq with h1 h2
                    exact ⟨h1.symm, h2.symm⟩
                  exact absurd hs1
                    (by rw [cmdOk_revParseFirstParent_nil env _ _ _ hpar]; simp)
            · rw [if_pos (by
                cases hcv : cmdOk env ((pickLoop env (lookupMP mps) temp
                    (first :: rest2) (((evs ++ [Ev.git Cmd.revParseAbbrevHead]) ++
                      [Ev.git (.revParseFirstParent first)]) ++
                      [Ev.git (.checkoutNew temp ((env.parents first).headD ""))])
                    ⟨temp, temp :: st0.branches⟩).trace ++
                    [Ev.git (.resetSoft ((env.parents first).headD ""))])
                    ⟨temp, temp :: st0.branches⟩ (.commitMsg msg)
                · rfl
                · exact absurd hcv hs5)]
              refine ⟨_, _, rfl, rfl, rfl, rfl, ?_, Or.inr rfl, ?_, ?_, ?_⟩
              · refine ⟨[Ev.git Cmd.revParseAbbrevHead,
                  Ev.git (.revParseFirstParent first),
                  Ev.git (.checkoutNew temp ((env.parents first).headD ""))] ++
                  ((first :: rest2).take k3).map
                    (fun c => Ev.git (.cherryPick temp (lookupMP mps c) c)) ++
                  [Ev.git (.resetSoft ((env.parents first).headD "")),
                    Ev.git (.commitMsg msg)],
                  ?_, ?_⟩
                · rw [htr3]
                  simp [List.append_assoc]
                · intro e he
                  rcases List.mem_append.mp he with h1 | h2
                  · rcases List.mem_append.mp h1 with h3 | h4
                    · rcases mem_triple h3 with rfl | rfl | rfl
                      · rfl
                      · rfl
                      · rfl
                    · obtain ⟨c, _, rfl⟩ := List.mem_map.mp h4
                      rfl
                  · rcases mem_double h2 with rfl | rfl
                    · rfl
                    · rfl
              · intro hc
                exact absurd hc (by simp)
              · intro first2 rest3 heq _
                obtain ⟨rfl, _⟩ : first2 = first ∧ rest3 = rest2 := by
                  injection heq with h1 h2
                  exact ⟨h1.symm, h2.symm⟩
                rw [htr3]
                simp
              · intro first2 rest3 heq hpar
                obtain ⟨rfl, _⟩ : first2 = first ∧ rest3 = rest2 := by
                  injection heq with h1 h2
                  exact ⟨h1.symm, h2.symm⟩
                exact absurd hs1
                  (by rw [cmdOk_revParseFirstParent_nil env _ _ _ hpar]; simp)
          · rw [if_pos (by
              cases hcv : cmdOk env (pickLoop env (lookupMP mps) temp
                  (first :: rest2) (((evs ++ [Ev.git Cmd.revParseAbbrevHead]) ++
                    [Ev.git (.revParseFirstParent first)]) ++
                    [Ev.git (.checkoutNew temp ((env.parents first).headD ""))])
                  ⟨temp, temp :: st0.branches⟩).trace ⟨temp, temp :: st0.branches⟩
                  (.resetSoft ((env.parents first).headD ""))
              · rfl
              · exact absurd hcv hs4)]
            refine ⟨_, _, rfl, rfl, rfl, rfl, ?_, Or.inr rfl, ?_, ?_, ?_⟩
            · refine ⟨[Ev.git Cmd.revParseAbbrevHead,
                Ev.git (.revParseFirstParent first),
                Ev.git (.checkoutNew temp ((env.parents first).headD ""))] ++
                ((first :: rest2).take k3).map
                  (fun c => Ev.git (.cherryPick temp (lookupMP mps c) c)) ++
                [Ev.git (.resetSoft ((env.parents first).headD ""))],
                ?_, ?_⟩
              · rw [htr3]
                simp [List.append_assoc]
              · intro e he
                rcases List.mem_append.mp he with h1 | h2
                · rcases List.mem_append.mp h1 with h3 | h4
                  · rcases mem_triple h3 with rfl | rfl | rfl
                    · rfl
                    · rfl
                    · rfl
                  · obtain ⟨c, _, rfl⟩ := List.mem_map.mp h4
                    rfl
                · obtain rfl := List.mem_singleton.mp h2
                  rfl
            · intro hc
              exact absurd hc (by simp)
            · intro first2 rest3 heq _
              obtain ⟨rfl, _⟩ : first2 = first ∧ rest3 = rest2 := by
                injection heq with h1 h2
                exact ⟨h1.symm, h2.symm⟩
              rw [htr3]
              simp
            · intro first2 rest3 heq hpar
              obtain ⟨rfl, _⟩ : first2 = first ∧ rest3 = rest2 := by
                injection heq with h1 h2
                exact ⟨h1.symm, h2.symm⟩
              exact absurd hs1
                (by rw [cmdOk_revParseFirstParent_nil env _ _ _ hpar]; simp)
        · rw [if_pos (by
            cases hcv : (pickLoop env (lookupMP mps) temp (first :: rest2)
                (((evs ++ [Ev.git Cmd.revParseAbbrevHead]) ++
                  [Ev.git (.revParseFirstParent first)]) ++
                  [Ev.git (.checkoutNew temp ((env.parents first).headD ""))])
                ⟨temp, temp :: st0.branches⟩).ok
            · rfl
            · exact absurd hcv hpk)]
          rw [hst3]
          refine ⟨_, _, rfl, rfl, rfl, rfl, ?_, Or.inr rfl, ?_, ?_, ?_⟩
          · refine ⟨[Ev.git Cmd.revParseAbbrevHead,
              Ev.git (.revParseFirstParent first),
              Ev.git (.checkoutNew temp ((env.parents first).headD ""))] ++
              ((first :: rest2).take k3).map
                (fun c => Ev.git (.cherryPick temp (lookupMP mps c) c)),
              ?_, ?_⟩
            · rw [htr3]
              simp [List.append_assoc]
            · intro e he
              rcases List.mem_append.mp he with h1 | h2
              · rcases mem_triple h1 with rfl | rfl | rfl
                · rfl
                · rfl
                · rfl
              · obtain ⟨c, _, rfl⟩ := List.mem_map.mp h2
                rfl
          · intro hc
            exact absurd hc (by simp)
          · intro first2 rest3 heq _
            obtain ⟨rfl, _⟩ : first2 = first ∧ rest3 = rest2 := by
              injection heq with h1 h2
              exact ⟨h1.symm, h2.symm⟩
            rw [htr3]
            simp
          · intro first2 rest3 heq hpar
            obtain ⟨rfl, _⟩ : first2 = first ∧ rest3 = rest2 := by
              injection heq with h1 h2
              exact ⟨h1.symm, h2.symm⟩
            exact absurd hs1
              (by rw [cmdOk_revParseFirstParent_nil env _ _ _ hpar]; simp)
      · rw [if_pos (by
          cases hcv : cmdOk env ((evs ++ [Ev.git Cmd.revParseAbbrevHead]) ++
              [Ev.git (.revParseFirstParent first)]) st0
              (.checkoutNew temp ((env.parents first).headD ""))
          · rfl
          · exact absurd hcv hs2)]
        rw [issue_state, if_neg hs2]
        refine ⟨_, _, rfl, rfl, rfl, rfl, ?_, Or.inl rfl, ?_, ?_, ?_⟩
        · refine ⟨[Ev.git Cmd.revParseAbbrevHead,
            Ev.git (.revParseFirstParent first),
            Ev.git (.checkoutNew temp ((env.parents first).headD ""))], ?_, ?_⟩
          · simp [List.append_assoc]
          · intro e he
            rcases mem_triple he with rfl | rfl | rfl
            · rfl
            · rfl
            · rfl
        · intro hc
          exact absurd hc (by simp)
        · intro first2 rest3 heq _
          obtain ⟨rfl, _⟩ : first2 = first ∧ rest3 = rest2 := by
            injection heq with h1 h2
            exact ⟨h1.symm, h2.symm⟩
          simp
        · intro first2 rest3 heq hpar
          obtain ⟨rfl, _⟩ : first2 = first ∧ rest3 = rest2 := by
            injection heq with h1 h2
            exact ⟨h1.symm, h2.symm⟩
          exact absurd hs1
            (by rw [cmdOk_revParseFirstParent_nil env _ _ _ hpar]; simp)
    · -- the base rev-parse failed (for a parentless oldest commit, or any
      -- other non-zero exit): caught error, no branch creation
      have hs1f : cmdOk env (evs ++ [Ev.git Cmd.revParseAbbrevHead]) st0
          (.revParseFirstParent first) = false := by
        cases hcv : cmdOk env (evs ++ [Ev.git Cmd.revParseAbbrevHead]) st0
          (.revParseFirstParent first)
        · rfl
        · exact absurd hcv hs1
      rw [if_pos (by rw [hs1f])]
      refine ⟨_, _, rfl, rfl, rfl, rfl, ?_, Or.inl rfl, ?_, ?_, ?_⟩
      · refine ⟨[Ev.git Cmd.revParseAbbrevHead,
          Ev.git (.revParseFirstParent first)], ?_, ?_⟩
        · simp [List.append_assoc]
        · intro e he
          rcases mem_double he with rfl | rfl
          · rfl
          · rfl
      · intro hc
        exact absurd hc (by simp)
      · intro first2 rest3 heq hok
        obtain ⟨rfl, _⟩ : first2 = first ∧ rest3 = rest2 := by
          injection heq with h1 h2
          exact ⟨h1.symm, h2.symm⟩
        exact absurd hok hs1
      · intro first2 rest3 heq hpar
        obtain ⟨rfl, _⟩ : first2 = first ∧ rest3 = rest2 := by
          injection heq with h1 h2
          exact ⟨h1.symm, h2.symm⟩
        refine ⟨rfl, ?_⟩
        intro b bb hmem
        rcases List.mem_append.mp hmem with h1 | h2
        · rcases List.mem_append.mp h1 with h3 | h4
          · exact promptShape_ne_checkoutNew _ (hpev _ h3) b bb rfl
          · simp at h4
        · simp at h2

theorem cmdOk_checkout_eq (env : Env) (tr : List Ev) (st : RepoState) (b : String) :
    cmdOk env tr st (.checkout b) =
      (st.branches.contains b && !(env.fails tr (.checkout b))) := rfl

/-- C2: in every propagation run in which the original branch was
captured (the runs that end in success, a per-target conflict, or an
exception after the first checkout), the teardown phase's first action is
a checkout of the branch that was checked out when the transaction began,
and a failure of that restoration checkout only produces a warning log
line — the outcome delivered to the caller was already decided and is
never turned into a raised exception by the restore.  Covers the
`finally` blocks of both `propagate_commit` (individual path) and
`combine_and_propagate`. -/
theorem C2_teardown_restores_original_branch (env : Env) (st0 : RepoState)
    (field0 temp msg : String) (selection targets : List String) (push : Bool)
    (evs : List Ev) (mps : List (String × Nat))
    (hrm : resolveMerges env selection.reverse = (evs, some mps))
    (hcap : cmdOk env evs st0 .revParseAbbrevHead = true)
    (hcur : st0.currentBranch ≠ "") (hsel : selection.reverse ≠ []) :
    ((propagate_commit_individual env st0 field0 selection targets push
        true).teardownTrace = [Ev.git (.checkout st0.currentBranch)] ∧
      (∃ f, (propagate_commit_individual env st0 field0 selection targets push
        true).outcome = .finished f) ∧
      ((st0.branches.contains st0.currentBranch &&
          !(env.fails (propagate_commit_individual env st0 field0 selection targets
            push true).mainTrace (.checkout st0.currentBranch))) = true →
        (propagate_commit_individual env st0 field0 selection targets push
          true).warnings = []) ∧
      ((st0.branches.contains st0.currentBranch &&
          !(env.fails (propagate_commit_individual env st0 field0 selection targets
            push true).mainTrace (.checkout st0.currentBranch))) = false →
        (propagate_commit_individual env st0 field0 selection targets push
          true).warnings = [warnRestoreInd])) ∧
    ((combine_and_propagate env st0 field0 temp msg selection targets
        push).teardownTrace.head? = some (Ev.git (.checkout st0.currentBranch)) ∧
      (combine_and_propagate env st0 field0 temp msg selection targets
        push).outcome ≠ .raised ∧
      ((combine_and_propagate env st0 field0 temp msg selection targets
          push).warnings = [] ∨
        (combine_and_propagate env st0 field0 temp msg selection targets
          push).warnings = [warnCleanupCombine])) := by
  constructor
  · rw [propagate_commit_individual_run env st0 field0 selection targets push
      evs mps hrm hcap]
    obtain ⟨new, htr, hbr, _, _, _⟩ :=
      targetsLoop_spec env (lookupMP mps) selection.reverse push targets 0
        (evs ++ [Ev.git .revParseAbbrevHead]) st0
    refine ⟨teardownInd_events _ _ _ _ hcur, ⟨_, rfl⟩, ?_, ?_⟩
    · intro hok
      rw [teardownInd_warnings _ _ _ _ hcur]
      rw [if_pos (by rw [cmdOk_checkout_eq, hbr]; exact hok)]
    · intro hok
      rw [teardownInd_warnings _ _ _ _ hcur]
      rw [if_neg (by rw [cmdOk_checkout_eq, hbr, hok]; simp)]
  · obtain ⟨tr, st, hmain, htd, hw, hfin, _, _, hraised, _, _⟩ :=
      combine_and_propagate_spec env st0 field0 temp msg selection targets push
        evs mps hrm hcap
    refine ⟨?_, ?_, ?_⟩
    · rw [htd, teardown_combine_head _ _ _ _ _ hcur]
    · intro hc
      exact hsel (hraised hc)
    · rw [hw]
      exact teardown_combine_warnings_cases env tr st st0.currentBranch temp

/-- Witness for C2 at a concrete fully successful run. -/
theorem C2_teardown_restores_original_branch_witness :
    resolveMerges ⟨fun _ => ["z"], fun _ => some 1, fun _ _ => false, "XH"⟩
      (["c2", "c1"] : List String).reverse = ([], some []) ∧
    cmdOk ⟨fun _ => ["z"], fun _ => some 1, fun _ _ => false, "XH"⟩ []
      ⟨"dev", ["dev", "main"]⟩ .revParseAbbrevHead = true ∧
    (RepoState.mk "dev" ["dev", "main"]).currentBranch ≠ "" ∧
    (["c2", "c1"] : List String).reverse ≠ [] ∧
    ((propagate_commit_individual
        ⟨fun _ => ["z"], fun _ => some 1, fun _ _ => false, "XH"⟩
        ⟨"dev", ["dev", "main"]⟩ "" ["c2", "c1"] ["main"] false
        true).teardownTrace = [Ev.git (.checkout "dev")] ∧
      (∃ f, (propagate_commit_individual
        ⟨fun _ => ["z"], fun _ => some 1, fun _ _ => false, "XH"⟩
        ⟨"dev", ["dev", "main"]⟩ "" ["c2", "c1"] ["main"] false
        true).outcome = .finished f)) :=
  ⟨by decide, by decide, by decide, by decide,
    ⟨(C2_teardown_restores_original_branch
      ⟨fun _ => ["z"], fun _ => some 1, fun _ _ => false, "XH"⟩
      ⟨"dev", ["dev", "main"]⟩ "" "temp-combine-ab" "msg" ["c2", "c1"] ["main"]
      false [] [] (by decide) (by decide) (by decide) (by decide)).1.1,
     (C2_teardown_restores_original_branch
      ⟨fun _ => ["z"], fun _ => some 1, fun _ _ => false, "XH"⟩
      ⟨"dev", ["dev", "main"]⟩ "" "temp-combine-ab" "msg" ["c2", "c1"] ["main"]
      false [] [] (by decide) (by decide) (by decide) (by decide)).1.2.1⟩⟩

theorem no_prompt_after_mut (tr a b : List Ev) (htr : tr = a ++ b)
    (ha : ∀ e ∈ a, e.isMut = false) (hb : ∀ e ∈ b, e.isPrompt = false) :
    ∀ (i j : Nat) (hi : i < tr.length) (hj : j < tr.length),
      (tr.get ⟨j, hj⟩).isPrompt = true → (tr.get ⟨i, hi⟩).isMut = true → j < i := by
  subst htr
  intro i j hi hj hp hm
  have hja : j < a.length := by
    by_contra hja
    push_neg at hja
    have hmem : (a ++ b).get ⟨j, hj⟩ ∈ b := by
      rw [List.get_eq_getElem, List.getElem_append_right hja]
      exact List.getElem_mem _
    rw [hb _ hmem] at hp
    exact absurd hp (by simp)
  have hia : a.length ≤ i := by
    by_contra hia
    push_neg at hia
    have hmem : (a ++ b).get ⟨i, hi⟩ ∈ a := by
      rw [List.get_eq_getElem, List.getElem_append_left hia]
      exact List.getElem_mem _
    rw [ha _ hmem] at hm
    exact absurd hm (by simp)
  omega

theorem teardown_combine_branches (env : Env) (tr : List Ev) (st : RepoState)
    (field temp : String) (htemp : temp ∉ st.branches) :
    (teardown_combine env tr st field temp).state.branches = st.branches := by
  have hcont : st.branches.contains temp = false := by
    simpa using htemp
  rw [teardown_combine]
  by_cases hf : field = ""
  · rw [if_pos hf]
    have hD : cmdOk env tr st (.branchD temp) = false := by
      rw [cmdOk, hcont]
      rfl
    rw [hD]
    rfl
  · rw [if_neg hf]
    by_cases h1 : cmdOk env tr st (.checkout field) = true
    · rw [if_pos h1]
      have hD : cmdOk env (tr ++ [Ev.git (.checkout field)])
          (applyCmd st (.checkout field)) (.branchD temp) = false := by
        rw [cmdOk]
        have : (applyCmd st (.checkout field)).branches.contains temp = false := hcont
        rw [this]
        rfl
      simp only [hD]
      rfl
    · rw [if_neg h1]

/-- C4 as stated is false on the code: in `combine_and_propagate`,
declining the merge-parent prompt returns through the `finally` block,
which checks out the branch recorded in the (possibly stale)
`self.original_branch` field — a repository-mutating checkout.  Concrete
run: the field holds `main` from an earlier call, the repository is on
`dev`, the selection holds the merge commit `m1`, the collaborator
declines; the run is cancelled, yet `git checkout main` is issued and the
checked-out branch changes from `dev` to `main`. -/
theorem C4_counterexample :
    ((⟨fun h => if h = "m1" then ["p1", "p2"] else ["z"], fun _ => none,
        fun _ _ => false, "XH"⟩ : Env).parents "m1").length = 2 ∧
    (combine_and_propagate
      ⟨fun h => if h = "m1" then ["p1", "p2"] else ["z"], fun _ => none,
        fun _ _ => false, "XH"⟩
      ⟨"dev", ["dev", "main", "rel"]⟩ "main" "temp-combine-ab" "msg"
      ["c2", "m1"] ["rel"] false).outcome = .cancelled ∧
    Ev.git (.checkout "main") ∈
      (combine_and_propagate
        ⟨fun h => if h = "m1" then ["p1", "p2"] else ["z"], fun _ => none,
          fun _ _ => false, "XH"⟩
        ⟨"dev", ["dev", "main", "rel"]⟩ "main" "temp-combine-ab" "msg"
        ["c2", "m1"] ["rel"] false).teardownTrace ∧
    (Ev.git (.checkout "main")).isMut = true ∧
    (combine_and_propagate
      ⟨fun h => if h = "m1" then ["p1", "p2"] else ["z"], fun _ => none,
        fun _ _ => false, "XH"⟩
      ⟨"dev", ["dev", "main", "rel"]⟩ "main" "temp-combine-ab" "msg"
      ["c2", "m1"] ["rel"] false).finalState.currentBranch ≠ "dev" := by
  refine ⟨by decide, by decide, by decide, rfl, by decide⟩

/-- C4 amended: merge-parent choices are requested before any
repository-mutating git command in both paths (no prompt event follows a
mutating event in any main trace); on decline, the individual path
performs no mutation at all (unchanged state, empty teardown, no mutating
command), and the combine path issues no mutating command before
returning, except that its `finally` teardown may check out the
previously recorded original-branch field and attempts a temp-branch
deletion which fails harmlessly — the branch list is unchanged when the
temp name is fresh. -/
theorem C4_amended_prompt_gating (env : Env) (st0 : RepoState)
    (field0 temp msg : String) (selection targets : List String)
    (push confirm : Bool) :
    (∀ (i j : Nat)
      (hi : i < (propagate_commit_individual env st0 field0 selection targets push
        confirm).mainTrace.length)
      (hj : j < (propagate_commit_individual env st0 field0 selection targets push
        confirm).mainTrace.length),
      (((propagate_commit_individual env st0 field0 selection targets push
        confirm).mainTrace).get ⟨j, hj⟩).isPrompt = true →
      (((propagate_commit_individual env st0 field0 selection targets push
        confirm).mainTrace).get ⟨i, hi⟩).isMut = true → j < i) ∧
    (∀ (i j : Nat)
      (hi : i < (combine_and_propagate env st0 field0 temp msg selection targets
        push).mainTrace.length)
      (hj : j < (combine_and_propagate env st0 field0 temp msg selection targets
        push).mainTrace.length),
      (((combine_and_propagate env st0 field0 temp msg selection targets
        push).mainTrace).get ⟨j, hj⟩).isPrompt = true →
      (((combine_and_propagate env st0 field0 temp msg selection targets
        push).mainTrace).get ⟨i, hi⟩).isMut = true → j < i) ∧
    ((resolveMerges env selection.reverse).2 = none →
      (propagate_commit_individual env st0 field0 selection targets push
        confirm).finalState = st0 ∧
      (propagate_commit_individual env st0 field0 selection targets push
        confirm).teardownTrace = [] ∧
      ∀ e ∈ (propagate_commit_individual env st0 field0 selection targets push
        confirm).mainTrace, e.isMut = false) ∧
    ((resolveMerges env selection.reverse).2 = none →
      (∀ e ∈ (combine_and_propagate env st0 field0 temp msg selection targets
        push).mainTrace, e.isMut = false) ∧
      (temp ∉ st0.branches →
        (combine_and_propagate env st0 field0 temp msg selection targets
          push).finalState.branches = st0.branches) ∧
      (∀ e ∈ (combine_and_propagate env st0 field0 temp msg selection targets
          push).teardownTrace,
        e = Ev.git (.checkout field0) ∨ e = Ev.git (.branchD temp))) := by
  rcases hrm : resolveMerges env selection.reverse with ⟨evs, ro⟩
  have hpev : ∀ e ∈ evs, PromptShape e := by
    have hall := resolveMerges_shape env selection.reverse
    rw [hrm] at hall
    exact hall
  have hpevmut : ∀ e ∈ evs, e.isMut = false := fun e he =>
    promptShape_not_mut e (hpev e he)
  refine ⟨?_, ?_, ?_, ?_⟩
  · -- individual: prompts precede mutating commands
    cases ro with
    | none =>
      rw [propagate_commit_individual_decline env st0 field0 selection targets push
        confirm evs hrm]
      exact no_prompt_after_mut _ evs [] (by simp) hpevmut (by simp)
    | some mps =>
      cases confirm with
      | false =>
        rw [propagate_commit_individual_noconfirm env st0 field0 selection targets
          push evs mps hrm]
        exact no_prompt_after_mut _ evs [] (by simp) hpevmut (by simp)
      | true =>
        by_cases hcap : cmdOk env evs st0 .revParseAbbrevHead = true
        · rw [propagate_commit_individual_run env st0 field0 selection targets push
            evs mps hrm hcap]
          obtain ⟨new, htr, _, _, hshape, _⟩ :=
            targetsLoop_spec env (lookupMP mps) selection.reverse push targets 0
              (evs ++ [Ev.git .revParseAbbrevHead]) st0
          refine no_prompt_after_mut _ evs ([Ev.git .revParseAbbrevHead] ++ new)
            (by rw [htr, List.append_assoc]) hpevmut ?_
          intro e he
          rcases List.mem_append.mp he with h1 | h2
          · rw [List.mem_singleton.mp h1]; rfl
          · obtain ⟨b, _, hsh⟩ := hshape e h2
            exact evShape_not_prompt e b hsh
        · have hcap2 : cmdOk env evs st0 .revParseAbbrevHead = false := by
            cases hcv : cmdOk env evs st0 .revParseAbbrevHead
            · rfl
            · exact absurd hcv hcap
          rw [propagate_commit_individual_capfail env st0 field0 selection targets
            push evs mps hrm hcap2]
          refine no_prompt_after_mut _ evs [Ev.git .revParseAbbrevHead] rfl
            hpevmut ?_
          intro e he
          rw [List.mem_singleton.mp he]; rfl
  · -- combine: prompts precede mutating commands
    cases ro with
    | none =>
      rw [combine_and_propagate_decline env st0 field0 temp msg selection targets
        push evs hrm]
      exact no_prompt_after_mut _ evs [] (by simp) hpevmut (by simp)
    | some mps =>
      by_cases hcap : cmdOk env evs st0 .revParseAbbrevHead = true
      · obtain ⟨tr, st, hmain, _, _, _, ⟨rest, hsplit, hnp⟩, _, _, _, _⟩ :=
          combine_and_propagate_spec env st0 field0 temp msg selection targets push
            evs mps hrm hcap
        rw [hmain]
        exact no_prompt_after_mut _ evs rest hsplit hpevmut hnp
      · have hcap2 : cmdOk env evs st0 .revParseAbbrevHead = false := by
          cases hcv : cmdOk env evs st0 .revParseAbbrevHead
          · rfl
          · exact absurd hcv hcap
        rw [combine_and_propagate_capfail env st0 field0 temp msg selection targets
          push evs mps hrm hcap2]
        refine no_prompt_after_mut _ evs [Ev.git .revParseAbbrevHead] rfl
          hpevmut ?_
        intro e he
        rw [List.mem_singleton.mp he]; rfl
  · -- individual path on decline: no mutation whatsoever
    intro hdecl
    cases ro with
    | none =>
      rw [propagate_commit_individual_decline env st0 field0 selection targets push
        confirm evs hrm]
      exact ⟨rfl, rfl, hpevmut⟩
    | some mps =>
      simp at hdecl
  · -- combine path on decline
    intro hdecl
    cases ro with
    | none =>
      rw [combine_and_propagate_decline env st0 field0 temp msg selection targets
        push evs hrm]
      refine ⟨hpevmut, ?_, ?_⟩
      · intro htemp
        exact teardown_combine_branches env evs st0 field0 temp htemp
      · exact teardown_combine_events_sub env evs st0 field0 temp
    | some mps =>
      simp at hdecl

/-- Witness for the amended C4: a declined merge prompt in both paths,
with a fresh temp-branch name; the individual run leaves the state
untouched and the combine run leaves the branch list unchanged. -/
theorem C4_amended_prompt_gating_witness :
    (resolveMerges
      ⟨fun h => if h = "m1" then ["p1", "p2"] else ["z"], fun _ => none,
        fun _ _ => false, "XH"⟩ (["c2", "m1"] : List String).reverse).2 = none ∧
    ("temp-combine-ab" ∉ (RepoState.mk "dev" ["dev", "main", "rel"]).branches) ∧
    (propagate_commit_individual
      ⟨fun h => if h = "m1" then ["p1", "p2"] else ["z"], fun _ => none,
        fun _ _ => false, "XH"⟩
      ⟨"dev", ["dev", "main", "rel"]⟩ "main" ["c2", "m1"] ["rel"] false
      true).finalState = ⟨"dev", ["dev", "main", "rel"]⟩ ∧
    (combine_and_propagate
      ⟨fun h => if h = "m1" then ["p1", "p2"] else ["z"], fun _ => none,
        fun _ _ => false, "XH"⟩
      ⟨"dev", ["dev", "main", "rel"]⟩ "main" "temp-combine-ab" "msg"
      ["c2", "m1"] ["rel"] false).finalState.branches = ["dev", "main", "rel"] :=
  ⟨by decide, by decide,
    ((C4_amended_prompt_gating
      ⟨fun h => if h = "m1" then ["p1", "p2"] else ["z"], fun _ => none,
        fun _ _ => false, "XH"⟩
      ⟨"dev", ["dev", "main", "rel"]⟩ "main" "temp-combine-ab" "msg"
      ["c2", "m1"] ["rel"] false true).2.2.1 (by decide)).1,
    ((C4_amended_prompt_gating
      ⟨fun h => if h = "m1" then ["p1", "p2"] else ["z"], fun _ => none,
        fun _ _ => false, "XH"⟩
      ⟨"dev", ["dev", "main", "rel"]⟩ "main" "temp-combine-ab" "msg"
      ["c2", "m1"] ["rel"] false true).2.2.2 (by decide)).2.1 (by decide)⟩

/-- C5 as stated is false on the code: the base is computed with
`git rev-parse {oldest}^`, which succeeds for a merge commit (returning
its FIRST parent); no `AmbiguousBase` failure occurs for an oldest commit
with two or more parents.  Concrete run: the oldest selected commit `m1`
has two parents, the collaborator resolves its cherry-pick parent, and
the combine runs to completion using `p1` (the first parent) as the base
— no error of any kind. -/
theorem C5_counterexample :
    ((⟨fun h => if h = "m1" then ["p1", "p2"] else
          if h = "c2" then ["m1"] else ["z"], fun _ => some 2,
        fun _ _ => false, "XH"⟩ : Env).parents "m1").length = 2 ∧
    (combine_and_propagate
      ⟨fun h => if h = "m1" then ["p1", "p2"] else
          if h = "c2" then ["m1"] else ["z"], fun _ => some 2,
        fun _ _ => false, "XH"⟩
      ⟨"dev", ["dev", "rel"]⟩ "" "temp-combine-ab" "msg" ["c2", "m1"] ["rel"]
      false).outcome = .finished none ∧
    Ev.git (.checkoutNew "temp-combine-ab" "p1") ∈
      (combine_and_propagate
        ⟨fun h => if h = "m1" then ["p1", "p2"] else
            if h = "c2" then ["m1"] else ["z"], fun _ => some 2,
          fun _ _ => false, "XH"⟩
        ⟨"dev", ["dev", "rel"]⟩ "" "temp-combine-ab" "msg" ["c2", "m1"] ["rel"]
        false).mainTrace := by
  refine ⟨by decide, by decide, by decide⟩

/-- C5 amended: during a combine the base commit is computed as the FIRST
parent of the oldest selected commit (`rev-parse first^`); the combine
aborts — as a generic caught git-command failure, there is no distinct
`AmbiguousBase` error type — exactly when the oldest commit has zero
parents, in which case no temporary branch is ever created; when the
oldest commit has at least one parent and the rev-parse is not failed by
the environment, the temporary branch is created at the first parent. -/
theorem C5_amended_base_first_parent (env : Env) (st0 : RepoState)
    (field0 temp msg : String) (selection targets : List String) (push : Bool)
    (evs : List Ev) (mps : List (String × Nat)) (first : String)
    (rest2 : List String)
    (hrm : resolveMerges env selection.reverse = (evs, some mps))
    (hcap : cmdOk env evs st0 .revParseAbbrevHead = true)
    (hsel : selection.reverse = first :: rest2) :
    (env.parents first = [] →
      (combine_and_propagate env st0 field0 temp msg selection targets
        push).outcome = .errored ∧
      ∀ b bb, Ev.git (.checkoutNew b bb) ∉
        (combine_and_propagate env st0 field0 temp msg selection targets
          push).mainTrace) ∧
    (∀ p ps2, env.parents first = p :: ps2 →
      env.fails (evs ++ [Ev.git Cmd.revParseAbbrevHead])
        (.revParseFirstParent first) = false →
      Ev.git (.checkoutNew temp p) ∈
        (combine_and_propagate env st0 field0 temp msg selection targets
          push).mainTrace) := by
  obtain ⟨tr, st, hmain, _, _, _, _, _, _, h5, h6⟩ :=
    combine_and_propagate_spec env st0 field0 temp msg selection targets push
      evs mps hrm hcap
  constructor
  · intro hpar
    obtain ⟨hout, hnotin⟩ := h6 first rest2 hsel hpar
    refine ⟨hout, ?_⟩
    intro b bb
    rw [hmain]
    exact hnotin b bb
  · intro p ps2 hpar hfail
    have hok : cmdOk env (evs ++ [Ev.git Cmd.revParseAbbrevHead]) st0
        (.revParseFirstParent first) = true := by
      rw [cmdOk, hpar, hfail]
      rfl
    have hmem := h5 first rest2 hsel hok
    rw [hpar] at hmem
    rw [hmain]
    simpa using hmem

/-- Witness for the amended C5: a two-parent oldest commit; the temp
branch is created at the first parent. -/
theorem C5_amended_base_first_parent_witness :
    resolveMerges
      (⟨fun h => if h = "m1" then ["p1", "p2"] else
          if h = "c2" then ["m1"] else ["z"], fun _ => some 2,
        fun _ _ => false, "XH"⟩ : Env) (["c2", "m1"] : List String).reverse =
      ([Ev.git (.logParents "m1"), Ev.git (.logSubject "p1"),
        Ev.git (.logSubject "p2"), Ev.promptMerge "m1"], some [("m1", 2)]) ∧
    (["c2", "m1"] : List String).reverse = "m1" :: ["c2"] ∧
    (⟨fun h => if h = "m1" then ["p1", "p2"] else
        if h = "c2" then ["m1"] else ["z"], fun _ => some 2,
      fun _ _ => false, "XH"⟩ : Env).parents "m1" = "p1" :: ["p2"] ∧
    Ev.git (.checkoutNew "temp-combine-ab" "p1") ∈
      (combine_and_propagate
        ⟨fun h => if h = "m1" then ["p1", "p2"] else
            if h = "c2" then ["m1"] else ["z"], fun _ => some 2,
          fun _ _ => false, "XH"⟩
        ⟨"dev", ["dev", "rel"]⟩ "" "temp-combine-ab" "msg" ["c2", "m1"] ["rel"]
        false).mainTrace :=
  ⟨by decide, by decide, by decide,
    (C5_amended_base_first_parent
      ⟨fun h => if h = "m1" then ["p1", "p2"] else
          if h = "c2" then ["m1"] else ["z"], fun _ => some 2,
        fun _ _ => false, "XH"⟩
      ⟨"dev", ["dev", "rel"]⟩ "" "temp-combine-ab" "msg" ["c2", "m1"] ["rel"]
      false
      [Ev.git (.logParents "m1"), Ev.git (.logSubject "p1"),
        Ev.git (.logSubject "p2"), Ev.promptMerge "m1"] [("m1", 2)] "m1" ["c2"]
      (by decide) (by decide) (by decide)).2 "p1" ["p2"] (by decide) (by decide)⟩

/-- C6 as stated is false on the code: the combine teardown deletes the
temp branch only after the restoration checkout, inside the same `try`;
when the restoration checkout fails (here: the cherry-pick conflict left
the tree in a conflicted state), the `except` is entered before
`branch -D` runs, and the temp branch remains in the branch list. -/
theorem C6_counterexample :
    List.isPrefixOf "temp-combine-".data "temp-combine-ab".data = true ∧
    "temp-combine-ab" ∈
      (combine_and_propagate
        ⟨fun h => if h = "c1" then ["p0"] else
            if h = "c2" then ["c1"] else [], fun _ => some 1,
          fun _ c => match c with
            | .cherryPick _ _ _ => true
            | .checkout b => b == "dev"
            | _ => false, "XH"⟩
        ⟨"dev", ["dev", "main", "rel"]⟩ "" "temp-combine-ab" "msg"
        ["c2", "c1"] ["rel"] false).finalState.branches := by
  refine ⟨by decide, by decide⟩

/-- C6 amended: after a combine operation whose teardown reported no
warning (i.e. both the restoration checkout and the temp branch deletion
succeeded), no branch with the temporary name remains: the final branch
list equals the initial one.  When the teardown warns — in particular
when the restoration checkout fails and the deletion is skipped — the
temp branch may remain. -/
theorem C6_amended_cleanup_on_clean_teardown (env : Env) (st0 : RepoState)
    (field0 temp msg : String) (selection targets : List String) (push : Bool)
    (htemp : temp ∉ st0.branches)
    (hw : (combine_and_propagate env st0 field0 temp msg selection targets
      push).warnings = []) :
    (combine_and_propagate env st0 field0 temp msg selection targets
      push).finalState.branches = st0.branches := by
  rcases hrm : resolveMerges env selection.reverse with ⟨evs, ro⟩
  cases ro with
  | none =>
    rw [combine_and_propagate_decline env st0 field0 temp msg selection targets
      push evs hrm] at hw
    obtain ⟨hmem, _⟩ := teardown_combine_clean env evs st0 field0 temp hw
    exact absurd hmem htemp
  | some mps =>
    by_cases hcap : cmdOk env evs st0 .revParseAbbrevHead = true
    · obtain ⟨tr, st, _, _, hwarn, hfin, _, hbr, _, _, _⟩ :=
        combine_and_propagate_spec env st0 field0 temp msg selection targets push
          evs mps hrm hcap
      rw [hwarn] at hw
      obtain ⟨hmem, herase⟩ :=
        teardown_combine_clean env tr st st0.currentBranch temp hw
      rw [hfin, herase]
      rcases hbr with hb1 | hb2
      · rw [hb1] at hmem
        exact absurd hmem htemp
      · rw [hb2]
        rw [List.erase_cons_head]
    · have hcap2 : cmdOk env evs st0 .revParseAbbrevHead = false := by
        cases hcv : cmdOk env evs st0 .revParseAbbrevHead
        · rfl
        · exact absurd hcv hcap
      rw [combine_and_propagate_capfail env st0 field0 temp msg selection targets
        push evs mps hrm hcap2] at hw
      obtain ⟨hmem, _⟩ := teardown_combine_clean env
        (evs ++ [Ev.git .revParseAbbrevHead]) st0 field0 temp hw
      exact absurd hmem htemp

/-- Witness for the amended C6: a fully successful combine; the branch
list returns to its initial value. -/
theorem C6_amended_cleanup_on_clean_teardown_witness :
    ("temp-combine-ab" ∉ (RepoState.mk "dev" ["dev", "rel"]).branches) ∧
    (combine_and_propagate
      ⟨fun h => if h = "m1" then ["p1", "p2"] else
          if h = "c2" then ["m1"] else ["z"], fun _ => some 2,
        fun _ _ => false, "XH"⟩
      ⟨"dev", ["dev", "rel"]⟩ "" "temp-combine-ab" "msg" ["c2", "m1"] ["rel"]
      false).warnings = [] ∧
    (combine_and_propagate
      ⟨fun h => if h = "m1" then ["p1", "p2"] else
          if h = "c2" then ["m1"] else ["z"], fun _ => some 2,
        fun _ _ => false, "XH"⟩
      ⟨"dev", ["dev", "rel"]⟩ "" "temp-combine-ab" "msg" ["c2", "m1"] ["rel"]
      false).finalState.branches = ["dev", "rel"] :=
  ⟨by decide, by decide,
    C6_amended_cleanup_on_clean_teardown
      ⟨fun h => if h = "m1" then ["p1", "p2"] else
          if h = "c2" then ["m1"] else ["z"], fun _ => some 2,
        fun _ _ => false, "XH"⟩
      ⟨"dev", ["dev", "rel"]⟩ "" "temp-combine-ab" "msg" ["c2", "m1"] ["rel"]
      false (by decide) (by decide)⟩

/-- Witness for C9: a run in which the push on the first target fails;
the cherry-pick that was applied before the push is in the trace and is
not a rollback command. -/
theorem C9_push_failure_no_rollback_witness :
    (Ev.git (.cherryPick "main" none "c1") ∈
      (propagate_commit_individual
        ⟨fun _ => ["z"], fun _ => some 1,
          fun _ c => match c with
            | .push _ => true
            | _ => false, "XH"⟩
        ⟨"dev", ["dev", "main", "rel"]⟩ "" ["c2", "c1"] ["main", "rel"]
        true true).mainTrace ∨
      Ev.git (.cherryPick "main" none "c1") ∈
      (propagate_commit_individual
        ⟨fun _ => ["z"], fun _ => some 1,
          fun _ c => match c with
            | .push _ => true
            | _ => false, "XH"⟩
        ⟨"dev", ["dev", "main", "rel"]⟩ "" ["c2", "c1"] ["main", "rel"]
        true true).teardownTrace) ∧
      isRollbackEv (Ev.git (.cherryPick "main" none "c1")) = false :=
  ⟨Or.inl (by decide),
    C9_push_failure_no_rollback
      ⟨fun _ => ["z"], fun _ => some 1,
        fun _ c => match c with
          | .push _ => true
          | _ => false, "XH"⟩
      ⟨"dev", ["dev", "main", "rel"]⟩ "" ["c2", "c1"] ["main", "rel"]
      true true (Ev.git (.cherryPick "main" none "c1")) (Or.inl (by decide))⟩

end GitToolSuite
